import Mathlib

/-!
Verification of the swimlane process-diagram core: the connectivity
repairer (`ensureSingleConnectedProcess` in `src/backend/check-api.mjs`),
the lane layout engine (`layoutMap` in the frontend canvas component) and
the boundary geometry resolver (`getBoundaryPoint`), shallowly embedded
over a rational-number coordinate model.
-/

namespace ProcViz

/-- 2-D point; JS numbers are modelled as rationals. -/
structure Pt where
  x : Rat
  y : Rat
deriving DecidableEq

/-- Element type enum from the authoritative zod schema. -/
inductive ElemType
  | start_event
  | end_event
  | task
  | gateway
deriving DecidableEq

/-- A diagram node (`ElementSchema`). -/
structure Element where
  id : String
  type : ElemType
  label : String
  position : Pt
deriving DecidableEq

/-- `SwimlaneSchema`: ordered membership list of element ids. -/
structure Swimlane where
  id : String
  label : String
  elements : List String
deriving DecidableEq

/-- `ConnectionSchema`: a directed edge with an optional label. -/
structure Connection where
  source : String
  target : String
  label : Option String
deriving DecidableEq

/-- `ProcessSchema`. -/
structure ProcessModel where
  processName : String
  swimlanes : List Swimlane
  elements : List Element
  connections : List Connection
deriving DecidableEq

/-- The ids of a model's elements, in listed order. -/
def modelIds (m : ProcessModel) : List String :=
  m.elements.map (fun e => e.id)

/-- JS `Map` built from a list of elements keyed by id: `get` returns the
last binding inserted for the key. -/
def mapGetElement (es : List Element) (id : String) : Option Element :=
  es.foldl (fun acc e => if e.id = id then some e else acc) none

/-- Placeholder used where the TS source applies a non-null assertion to a
lookup that is proved below to always succeed. -/
def dummyElement : Element :=
  ⟨"", ElemType.task, "", ⟨0, 0⟩⟩

namespace Backend

/-- `getElementCenter` from `src/backend/check-api.mjs`: the visual center
computed from the element's stored position. -/
def getElementCenter (el : Element) : Pt :=
  match el.type with
  | ElemType.task => ⟨el.position.x + 80, el.position.y + 30⟩
  | ElemType.gateway => ⟨el.position.x + 28, el.position.y + 28⟩
  | ElemType.start_event => ⟨el.position.x + 20, el.position.y + 20⟩
  | ElemType.end_event => ⟨el.position.x + 20, el.position.y + 20⟩

/-- JS `Map` from `ids.map((id, i) => [id, i])`: the last index wins. -/
def indexByIdAux : List String → Nat → String → Option Nat → Option Nat
  | [], _, _, acc => acc
  | s :: ss, i, id, acc =>
      indexByIdAux ss (i + 1) id (if s = id then some i else acc)

/-- Index lookup used to build the undirected adjacency. -/
def indexById (ids : List String) (id : String) : Option Nat :=
  indexByIdAux ids 0 id none

/-- `adj[a].push(b)` on an array of adjacency lists. -/
def pushEdge (adj : List (List Nat)) (a b : Nat) : List (List Nat) :=
  adj.set a (adj.getD a [] ++ [b])

/-- Adjacency list read, `adj[v]`. -/
def adjGet (adj : List (List Nat)) (v : Nat) : List Nat :=
  adj.getD v []

/-- One connection's contribution to the adjacency: push both directions,
skipping the connection when an endpoint fails the index lookup. -/
def adjStep (idx : String → Option Nat) (adj : List (List Nat))
    (c : Connection) : List (List Nat) :=
  match idx c.source, idx c.target with
  | some a, some b => pushEdge (pushEdge adj a b) b a
  | some _, none => adj
  | none, some _ => adj
  | none, none => adj

/-- Build the undirected adjacency from the surviving connections. -/
def buildAdj (n : Nat) (conns : List Connection) (idx : String → Option Nat) :
    List (List Nat) :=
  conns.foldl (adjStep idx) (List.replicate n [])

/-- Inner loop of the DFS pop step: push every not-yet-visited neighbour,
marking it visited, in adjacency order (JS `stack.push` appends, so the
top of our head-first stack is the last neighbour pushed). -/
def pushUnvisited : List Nat → List Bool → List Nat → List Bool × List Nat
  | [], visited, stack => (visited, stack)
  | w :: ws, visited, stack =>
      if visited.getD w false then pushUnvisited ws visited stack
      else pushUnvisited ws (visited.set w true) (w :: stack)

/-- Iterative stack DFS; `comp` accumulates popped vertices in pop order.
Fuel bounds the number of iterations; it is proved below that the fuel
used by `discoverComponents` never runs out, so this matches the JS
`while (stack.length)` loop. -/
def dfsAux (adj : List (List Nat)) :
    Nat → List Bool → List Nat → List Nat → List Bool × List Nat
  | _, visited, [], comp => (visited, comp)
  | 0, visited, _ :: _, comp => (visited, comp)
  | fuel + 1, visited, v :: stack, comp =>
      let vs := pushUnvisited (adjGet adj v) visited stack
      dfsAux adj fuel vs.1 vs.2 (comp ++ [v])

/-- Outer component-discovery loop: scan indices in listed order, running
one DFS from each not-yet-visited index. -/
def discoverAux (adj : List (List Nat)) (fuel : Nat) :
    List Nat → List Bool → List (List Nat)
  | [], _ => []
  | i :: rest, visited =>
      if visited.getD i false then discoverAux adj fuel rest visited
      else
        let r := dfsAux adj fuel (visited.set i true) [i] []
        r.2 :: discoverAux adj fuel rest r.1

/-- Connected components of the index graph, in discovery order. -/
def discoverComponents (adj : List (List Nat)) (n : Nat) : List (List Nat) :=
  discoverAux adj (n + 1) (List.range n) (List.replicate n false)

/-- Main-component selection: first component containing a `start_event`
wins, else the largest so far (ties keep the earlier one). -/
def chooseMain (comps : List (List Nat)) (hasStart : List Nat → Bool) : Nat :=
  ((List.range comps.length).foldl
    (fun st i =>
      if st.2 then st
      else if hasStart (comps.getD i []) then (i, true)
      else if (comps.getD i []).length > (comps.getD st.1 []).length then (i, false)
      else st)
    (0, false)).1

/-- Squared Euclidean distance between two elements' centers. -/
def centerDist2 (a b : Element) : Rat :=
  (( getElementCenter a).x - (getElementCenter b).x) *
    ((getElementCenter a).x - (getElementCenter b).x) +
  ((getElementCenter a).y - (getElementCenter b).y) *
    ((getElementCenter a).y - (getElementCenter b).y)

/-- One comparison step of the closest-pair scan (strict `<`, so the first
minimal pair found wins). `none` plays the role of `bestD = Infinity`. -/
def betterPair (st : Option (Element × Element × Rat)) (a b : Element) :
    Option (Element × Element × Rat) :=
  match st with
  | none => some (a, b, centerDist2 a b)
  | some (a0, b0, d0) =>
      if centerDist2 a b < d0 then some (a, b, centerDist2 a b)
      else some (a0, b0, d0)

/-- Scan every (main element, component element) pair in order and keep
the minimum squared-distance pair. -/
def bestPair (mainEls compEls : List Element) : Option (Element × Element × Rat) :=
  mainEls.foldl (fun st a => compEls.foldl (fun st' b => betterPair st' a b) st) none

/-- `addConnection`: append a new unlabelled connection unless the same
directed (source, target) pair is already present. -/
def addConnection (conns : List Connection) (s t : String) : List Connection :=
  if conns.any (fun c => c.source = s && c.target = t) then conns
  else conns ++ [⟨s, t, none⟩]

/-- Resolve the elements of one component through the id map (the TS
source uses a non-null assertion on the lookup). -/
def compElements (es : List Element) (ids : List String) (comp : List Nat) :
    List Element :=
  comp.map (fun ix => (mapGetElement es (ids.getD ix "")).getD dummyElement)

/-- Merge one non-main component: pick the closest cross pair and add one
connection, directed from the smaller center-x endpoint to the larger. -/
def mergeStep (es : List Element) (ids : List String) (mainEls : List Element)
    (conns : List Connection) (comp : List Nat) : List Connection :=
  match bestPair mainEls (compElements es ids comp) with
  | none => conns
  | some (a, b, _) =>
      let ca := getElementCenter a
      let cb := getElementCenter b
      if ca.x ≤ cb.x then addConnection conns a.id b.id
      else addConnection conns b.id a.id

/-- The `for (let i = 0; i < components.length; i++)` merge loop, skipping
the main component. -/
def mergeLoop (es : List Element) (ids : List String) (mainEls : List Element)
    (mainIdx : Nat) : List (List Nat) → Nat → List Connection → List Connection
  | [], _, conns => conns
  | comp :: rest, i, conns =>
      mergeLoop es ids mainEls mainIdx rest (i + 1)
        (if i = mainIdx then conns else mergeStep es ids mainEls conns comp)

/-- Step 1 of the repairer: drop connections to missing nodes. -/
def pruneConnections (m : ProcessModel) : List Connection :=
  m.connections.filter
    (fun c => (mapGetElement m.elements c.source).isSome &&
              (mapGetElement m.elements c.target).isSome)

/-- The undirected adjacency the repairer builds for a model. -/
def modelAdj (m : ProcessModel) : List (List Nat) :=
  buildAdj (modelIds m).length (pruneConnections m) (indexById (modelIds m))

/-- The components the repairer discovers for a model. -/
def modelComponents (m : ProcessModel) : List (List Nat) :=
  discoverComponents (modelAdj m) (modelIds m).length

/-- Ids of elements whose type is `start_event`. -/
def startIds (m : ProcessModel) : List String :=
  (m.elements.filter (fun e => e.type = ElemType.start_event)).map (fun e => e.id)

/-- The index of the main component chosen by the repairer. -/
def modelMainIdx (m : ProcessModel) : Nat :=
  chooseMain (modelComponents m)
    (fun comp => comp.any (fun ix => (startIds m).contains ((modelIds m).getD ix "")))

/-- The resolved elements of the chosen main component. -/
def modelMainEls (m : ProcessModel) : List Element :=
  compElements m.elements (modelIds m)
    ((modelComponents m).getD (modelMainIdx m) [])

/-- `ensureSingleConnectedProcess` from `src/backend/check-api.mjs`:
prune dangling connections, discover undirected components, and stitch
every non-main component to the chosen main component with one new
connection each. -/
def ensureSingleConnectedProcess (m : ProcessModel) : ProcessModel :=
  if (modelComponents m).length ≤ 1 then
    ⟨m.processName, m.swimlanes, m.elements, pruneConnections m⟩
  else
    ⟨m.processName, m.swimlanes, m.elements,
      mergeLoop m.elements (modelIds m) (modelMainEls m) (modelMainIdx m)
        (modelComponents m) 0 (pruneConnections m)⟩

end Backend

namespace Frontend

/-- Layout constants from the canvas component. -/
def laneHeight : Rat := 140

def laneGap : Rat := 24

def laneHeaderWidth : Rat := 120

def minElementGap : Rat := 32

def canvasWidth : Rat := 1200

def rightMargin : Rat := 32

/-- Left edge of the packing area (`minX` in the source). -/
def layoutMinX : Rat := laneGap + laneHeaderWidth + 16

/-- Per-type footprint (width, height). -/
def shapeSize : ElemType → Rat × Rat
  | ElemType.task => (160, 60)
  | ElemType.start_event => (40, 40)
  | ElemType.end_event => (40, 40)
  | ElemType.gateway => (56, 56)

/-- Top edge of lane band `index`. -/
def laneY (index : Nat) : Rat :=
  laneGap + (index : Rat) * (laneHeight + laneGap)

/-- Membership list of lane `j` (`model.swimlanes[j]?.elements ?? []`). -/
def laneMembers (m : ProcessModel) (j : Nat) : List String :=
  (m.swimlanes.getD j ⟨"", "", []⟩).elements

/-- Member ids resolved against the element map, dropping unresolved ids
(`.map(get).filter(Boolean)`). -/
def laneRecords (m : ProcessModel) (j : Nat) : List Element :=
  (laneMembers m j).filterMap (mapGetElement m.elements)

/-- One record of the per-lane packing pass. -/
structure Item where
  el : Element
  w : Rat
  h : Rat
  baseY : Rat
deriving DecidableEq

/-- The items of lane `j`: footprint plus vertically centered base y. -/
def laneItems (m : ProcessModel) (j : Nat) : List Item :=
  (laneRecords m j).map
    (fun el =>
      ⟨el, (shapeSize el.type).1, (shapeSize el.type).2,
        laneY j + (laneHeight - (shapeSize el.type).2) / 2⟩)

/-- Left-to-right packing with a running cursor: place at
`min(cursor, canvas_width - right_margin - w)` and advance the cursor by
`w + minElementGap`. -/
def packLane : List Item → Rat → List (Item × Pt)
  | [], _ => []
  | it :: rest, cursor =>
      let maxX := canvasWidth - rightMargin - it.w
      let x := min cursor maxX
      (it, ⟨x, it.baseY⟩) :: packLane rest (x + it.w + minElementGap)

/-- Decidable check that no placement in a lane hits the right-edge cap. -/
def packFits : List Item → Rat → Bool
  | [], _ => true
  | it :: rest, cursor =>
      let maxX := canvasWidth - rightMargin - it.w
      let x := min cursor maxX
      if cursor ≤ maxX then packFits rest (x + it.w + minElementGap) else false

/-- Functional update modelling `positions.set`. -/
def mapSet (f : String → Option Pt) (k : String) (v : Pt) : String → Option Pt :=
  fun k' => if k' = k then some v else f k'

/-- Write-back of one lane's packed positions into the position map. -/
def writeLane (m : ProcessModel) (j : Nat) (pos : String → Option Pt) :
    String → Option Pt :=
  (packLane (laneItems m j) layoutMinX).foldl
    (fun p q => mapSet p q.1.el.id q.2) pos

/-- The per-lane loop `for (let laneIndex = 0; ...)`. -/
def lanesFold (m : ProcessModel) : List Nat → (String → Option Pt) →
    (String → Option Pt)
  | [], pos => pos
  | j :: rest, pos => lanesFold m rest (writeLane m j pos)

/-- `elementIdToLaneIndex`: last lane whose membership lists the id. -/
def laneIndexAux : List Swimlane → Nat → String → Option Nat → Option Nat
  | [], _, _, acc => acc
  | l :: ls, i, id, acc =>
      laneIndexAux ls (i + 1) id (if l.elements.contains id then some i else acc)

def elementIdToLaneIndex (m : ProcessModel) (id : String) : Nat :=
  (laneIndexAux m.swimlanes 0 id none).getD 0

/-- Fallback pass for elements not positioned by any lane pass. -/
def fallbackFold (m : ProcessModel) (pos : String → Option Pt) :
    String → Option Pt :=
  m.elements.foldl
    (fun p el =>
      match p el.id with
      | some _ => p
      | none =>
          mapSet p el.id
            ⟨layoutMinX,
              laneY (elementIdToLaneIndex m el.id) +
                (laneHeight - (shapeSize el.type).2) / 2⟩)
    pos

/-- `Math.max(model.swimlanes.length, 1)`. -/
def laneCount (m : ProcessModel) : Nat :=
  max m.swimlanes.length 1

/-- The layout map `id → render position` built by the canvas component:
per-lane packing passes in lane order, then the no-lane fallback. -/
def layoutMap (m : ProcessModel) : String → Option Pt :=
  fallbackFold m (lanesFold m (List.range (laneCount m)) (fun _ => none))

/-- `getElementCenter` of the canvas component: center from the render
position when one is supplied, else from the stored position. -/
def getElementCenter (el : Element) (renderPos : Option Pt) : Pt :=
  let p := renderPos.getD el.position
  match el.type with
  | ElemType.task => ⟨p.x + 80, p.y + 30⟩
  | ElemType.gateway => ⟨p.x + 28, p.y + 28⟩
  | ElemType.start_event => ⟨p.x + 20, p.y + 20⟩
  | ElemType.end_event => ⟨p.x + 20, p.y + 20⟩

/-- `getBoundaryPoint`: project the direction `d = toward - center` onto
the shape outline. The square root used by the circle case (`Math.hypot`)
is supplied as a parameter `sqrtFn`; every theorem below about the
degenerate case holds for an arbitrary `sqrtFn`, which captures that the
early return performs no root or division at all. -/
def getBoundaryPoint (sqrtFn : Rat → Rat) (el : Element) (renderPos : Pt)
    (toward : Pt) : Pt :=
  let c := getElementCenter el (some renderPos)
  let dx := toward.x - c.x
  let dy := toward.y - c.y
  if dx = 0 ∧ dy = 0 then c
  else
    match el.type with
    | ElemType.task =>
        let scale := 1 / max (|dx| / 80) (|dy| / 30)
        ⟨c.x + dx * scale, c.y + dy * scale⟩
    | ElemType.start_event =>
        let len := sqrtFn (dx * dx + dy * dy)
        let len := if len = 0 then 1 else len
        ⟨c.x + dx * (18 / len), c.y + dy * (18 / len)⟩
    | ElemType.end_event =>
        let len := sqrtFn (dx * dx + dy * dy)
        let len := if len = 0 then 1 else len
        ⟨c.x + dx * (18 / len), c.y + dy * (18 / len)⟩
    | ElemType.gateway =>
        let denom := |dx| + |dy|
        let denom := if denom = 0 then 1 else denom
        ⟨c.x + dx * (28 / denom), c.y + dy * (28 / denom)⟩

end Frontend

namespace Frontend

/-- Last value written for a key by a sequence of `positions.set` calls. -/
def lastWriteVal (l : List (Item × Pt)) (id : String) : Option Pt :=
  l.foldl (fun acc q => if q.1.el.id = id then some q.2 else acc) none

/-- The position lane `j`'s packing pass records for `id` (the last write
of that pass), if the pass writes it at all. -/
def lanePos (m : ProcessModel) (j : Nat) (id : String) : Option Pt :=
  lastWriteVal (packLane (laneItems m j) layoutMinX) id

end Frontend

/-- Undirected edge of a connection list, ignoring direction and label. -/
def edgeIn (conns : List Connection) (a b : String) : Prop :=
  ∃ c ∈ conns, (c.source = a ∧ c.target = b) ∨ (c.source = b ∧ c.target = a)

/-- Undirected reachability over a connection list. -/
def ReachIn (conns : List Connection) : String → String → Prop :=
  Relation.ReflTransGen (edgeIn conns)

/-- Reachability in the index graph given by an adjacency array. -/
def AdjReach (adj : List (List Nat)) : Nat → Nat → Prop :=
  Relation.ReflTransGen (fun a b => b ∈ Backend.adjGet adj a)

/-- Ids of the component at position `p` of a model's discovery list. -/
def compIdsAt (m : ProcessModel) (p : Nat) : List String :=
  ((Backend.modelComponents m).getD p []).map (fun ix => (modelIds m).getD ix "")

/-! Concrete diagrams used as witnesses and counterexamples. -/

/-- Shorthand element constructor for concrete diagrams. -/
def mkEl (id : String) (t : ElemType) (x y : Rat) : Element :=
  ⟨id, t, id, ⟨x, y⟩⟩

/-- Two isolated elements; the task sits to the right of the start. -/
def cexStoredPosA : ProcessModel :=
  ⟨"p", [⟨"l1", "A", ["s", "t"]⟩],
   [mkEl "s" ElemType.start_event 0 0, mkEl "t" ElemType.task 100 0], []⟩

/-- Same diagram except the task's stored position is far to the left. -/
def cexStoredPosB : ProcessModel :=
  ⟨"p", [⟨"l1", "A", ["s", "t"]⟩],
   [mkEl "s" ElemType.start_event 0 0, mkEl "t" ElemType.task (-300) 0], []⟩

/-- The spec's disjoint-merge scenario: `s1 → t1` and `t2 → e1`. -/
def wMerge : ProcessModel :=
  ⟨"p", [],
   [mkEl "s1" ElemType.start_event 0 0, mkEl "t1" ElemType.task 100 0,
    mkEl "t2" ElemType.task 300 0, mkEl "e1" ElemType.end_event 500 0],
   [⟨"s1", "t1", none⟩, ⟨"t2", "e1", none⟩]⟩

/-- A connected, reference-clean one-element diagram. -/
def wSingle : ProcessModel :=
  ⟨"p", [⟨"l1", "A", ["s"]⟩], [mkEl "s" ElemType.start_event 0 0], []⟩

/-- One lane with six tasks: the packing cursor overruns the right-edge
cap, so the last two tasks get clamped into overlapping positions. -/
def cexOverflow : ProcessModel :=
  ⟨"p", [⟨"lane-1", "Lane A", ["t1", "t2", "t3", "t4", "t5", "t6"]⟩],
   [mkEl "t1" ElemType.task 0 0, mkEl "t2" ElemType.task 0 0,
    mkEl "t3" ElemType.task 0 0, mkEl "t4" ElemType.task 0 0,
    mkEl "t5" ElemType.task 0 0, mkEl "t6" ElemType.task 0 0], []⟩

/-- The spec's lane-packing scenario: one lane with tasks `t1, t2, t3`. -/
def laneScenario : ProcessModel :=
  ⟨"p", [⟨"lane-1", "Lane A", ["t1", "t2", "t3"]⟩],
   [mkEl "t1" ElemType.task 0 0, mkEl "t2" ElemType.task 0 0,
    mkEl "t3" ElemType.task 0 0], []⟩

/-- Element `x` is listed by both lanes; lane 1 is the highest lane. -/
def wMultiLane : ProcessModel :=
  ⟨"p", [⟨"l0", "A", ["a", "x"]⟩, ⟨"l1", "B", ["x"]⟩],
   [mkEl "a" ElemType.task 0 0, mkEl "x" ElemType.task 0 0], []⟩

open Backend Frontend

/-! ### Generic list lemmas -/

theorem getD_set_self {α : Type} (l : List α) (w : Nat) (b d : α)
    (h : w < l.length) : (l.set w b).getD w d = b := by
  induction l generalizing w with
  | nil => simp at h
  | cons a t ih =>
      cases w with
      | zero => rfl
      | succ w => exact ih w (by simpa using h)

theorem getD_set_ne {α : Type} (l : List α) (w x : Nat) (b d : α)
    (h : x ≠ w) : (l.set w b).getD x d = l.getD x d := by
  induction l generalizing w x with
  | nil => simp [List.set]
  | cons a t ih =>
      cases w with
      | zero =>
          cases x with
          | zero => exact absurd rfl h
          | succ x => rfl
      | succ w =>
          cases x with
          | zero => rfl
          | succ x => exact ih w x (by omega)

theorem getD_mem {α : Type} (l : List α) (i : Nat) (d : α)
    (h : i < l.length) : l.getD i d ∈ l := by
  induction l generalizing i with
  | nil => simp at h
  | cons a t ih =>
      cases i with
      | zero => exact List.mem_cons_self a t
      | succ i => exact List.mem_cons_of_mem a (ih i (by simpa using h))

theorem getD_map {α β : Type} (l : List α) (f : α → β) (i : Nat) (d : β)
    (d2 : α) (h : i < l.length) :
    (l.map f).getD i d = f (l.getD i d2) := by
  induction l generalizing i with
  | nil => simp at h
  | cons a t ih =>
      cases i with
      | zero => rfl
      | succ i => exact ih i (by simpa using h)

theorem mem_exists_getD {α : Type} (l : List α) (a : α) (d : α)
    (h : a ∈ l) : ∃ i, i < l.length ∧ l.getD i d = a := by
  induction l with
  | nil => simp at h
  | cons b t ih =>
      rcases List.mem_cons.mp h with h1 | h1
      · exact ⟨0, by simp, h1.symm⟩
      · obtain ⟨i, hi, he⟩ := ih h1
        exact ⟨i + 1, by simpa using hi, he⟩

theorem nodup_getD_inj {α : Type} (l : List α) (d : α) (hn : l.Nodup)
    (i j : Nat) (hi : i < l.length) (hj : j < l.length)
    (he : l.getD i d = l.getD j d) : i = j := by
  induction l generalizing i j with
  | nil => simp at hi
  | cons a t ih =>
      rcases List.nodup_cons.mp hn with ⟨ha, ht⟩
      cases i with
      | zero =>
          cases j with
          | zero => rfl
          | succ j =>
              exfalso
              have he2 : a = t.getD j d := he
              exact ha (he2 ▸ getD_mem t j d (by simpa using hj))
      | succ i =>
          cases j with
          | zero =>
              exfalso
              have he2 : a = t.getD i d := he.symm
              exact ha (he2 ▸ getD_mem t i d (by simpa using hi))
          | succ j =>
              have := ih ht i j (by simpa using hi) (by simpa using hj) he
              omega

theorem getD_replicate_nil (n v : Nat) :
    (List.replicate n ([] : List Nat)).getD v [] = [] := by
  induction n generalizing v with
  | zero => rfl
  | succ n ih =>
      cases v with
      | zero => rfl
      | succ v => exact ih v

theorem count_false_set_true (l : List Bool) (w : Nat)
    (hw : w < l.length) (hf : l.getD w false = false) :
    (l.set w true).count false + 1 = l.count false := by
  induction l generalizing w with
  | nil => simp at hw
  | cons a t ih =>
      cases w with
      | zero =>
          have : a = false := hf
          subst this
          simp [List.count_cons]
      | succ w =>
          have := ih w (by simpa using hw) hf
          simp only [List.set, List.count_cons]
          omega

theorem count_false_le_length (l : List Bool) : l.count false ≤ l.length :=
  List.count_le_length false l

theorem drop_eq_getD_cons {α : Type} (l : List α) (i : Nat) (d : α)
    (h : i < l.length) : l.drop i = l.getD i d :: l.drop (i + 1) := by
  induction l generalizing i with
  | nil => simp at h
  | cons a t ih =>
      cases i with
      | zero => rfl
      | succ i => exact ih i (by simpa using h)

theorem range_split (k n : Nat) (h : k < n) :
    List.range n =
      List.range k ++ k :: ((List.range (n - k - 1)).map (fun t => k + 1 + t)) := by
  induction n with
  | zero => omega
  | succ m ih =>
      by_cases hk : k < m
      · have hm := ih hk
        have h1 : m = k + 1 + (m - k - 1) := by omega
        have h2 : m + 1 - k - 1 = (m - k - 1) + 1 := by omega
        rw [List.range_succ, hm, h2, List.range_succ, List.map_append]
        simp [h1.symm, List.append_assoc]
      · have hk2 : k = m := by omega
        subst hk2
        rw [List.range_succ]
        simp

/-! ### Lookup-map lemmas -/

theorem mapGetElement_aux (id : String) (es : List Element)
    (acc : Option Element) :
    (es.foldl (fun acc e => if e.id = id then some e else acc) acc = acc ∧
      id ∉ es.map (fun e => e.id)) ∨
    (∃ e, es.foldl (fun acc e => if e.id = id then some e else acc) acc = some e ∧
      e ∈ es ∧ e.id = id) := by
  induction es generalizing acc with
  | nil => exact Or.inl ⟨rfl, by simp⟩
  | cons e t ih =>
      by_cases he : e.id = id
      · rcases ih (some e) with ⟨h1, h2⟩ | ⟨e2, h1, h2, h3⟩
        · refine Or.inr ⟨e, ?_, List.mem_cons_self e t, he⟩
          simpa [List.foldl_cons, he] using h1
        · exact Or.inr ⟨e2, by simpa [List.foldl_cons, he] using h1,
            List.mem_cons_of_mem e h2, h3⟩
      · rcases ih acc with ⟨h1, h2⟩ | ⟨e2, h1, h2, h3⟩
        · refine Or.inl ⟨by simpa [List.foldl_cons, he] using h1, ?_⟩
          simp only [List.map_cons, List.mem_cons]
          rintro (h | h)
          · exact he h.symm
          · exact h2 h
        · exact Or.inr ⟨e2, by simpa [List.foldl_cons, he] using h1,
            List.mem_cons_of_mem e h2, h3⟩

theorem mapGetElement_some (es : List Element) (id : String) (e : Element)
    (h : mapGetElement es id = some e) : e ∈ es ∧ e.id = id := by
  rcases mapGetElement_aux id es none with ⟨h1, _⟩ | ⟨e2, h1, h2, h3⟩
  · rw [mapGetElement] at h; rw [h1] at h; cases h
  · rw [mapGetElement] at h; rw [h1] at h
    cases h; exact ⟨h2, h3⟩

theorem mapGetElement_isSome_iff (es : List Element) (id : String) :
    (mapGetElement es id).isSome = true ↔ id ∈ es.map (fun e => e.id) := by
  constructor
  · intro h
    rcases Option.isSome_iff_exists.mp h with ⟨e, he⟩
    obtain ⟨h1, h2⟩ := mapGetElement_some es id e he
    exact h2 ▸ List.mem_map_of_mem (fun e => e.id) h1
  · intro h
    rcases mapGetElement_aux id es none with ⟨h1, h2⟩ | ⟨e2, h1, _, _⟩
    · exact absurd h h2
    · rw [mapGetElement, h1]; rfl

/-! ### indexById lemmas -/

theorem indexByIdAux_spec (id : String) (ss : List String) (i0 : Nat)
    (acc : Option Nat) :
    indexByIdAux ss i0 id acc = acc ∨
    (∃ j, j < ss.length ∧ indexByIdAux ss i0 id acc = some (i0 + j) ∧
      ss.getD j "" = id) := by
  induction ss generalizing i0 acc with
  | nil => exact Or.inl rfl
  | cons s t ih =>
      by_cases hs : s = id
      · rcases ih (i0 + 1) (some i0) with h1 | ⟨j, hj, h1, h2⟩
        · refine Or.inr ⟨0, by simp, ?_, hs⟩
          simpa [indexByIdAux, hs] using h1
        · refine Or.inr ⟨j + 1, by simpa using hj, ?_, h2⟩
          rw [indexByIdAux, if_pos hs, h1]
          congr 1
          omega
      · rcases ih (i0 + 1) acc with h1 | ⟨j, hj, h1, h2⟩
        · exact Or.inl (by simpa [indexByIdAux, hs] using h1)
        · refine Or.inr ⟨j + 1, by simpa using hj, ?_, h2⟩
          rw [indexByIdAux, if_neg hs, h1]
          congr 1
          omega

theorem indexByIdAux_none (id : String) (ss : List String) (i0 : Nat)
    (acc : Option Nat) (h : indexByIdAux ss i0 id acc = none) :
    acc = none ∧ id ∉ ss := by
  induction ss generalizing i0 acc with
  | nil => exact ⟨h, by simp⟩
  | cons s t ih =>
      rw [indexByIdAux] at h
      obtain ⟨h1, h2⟩ := ih (i0 + 1) _ h
      by_cases hs : s = id
      · rw [if_pos hs] at h1; cases h1
      · rw [if_neg hs] at h1
        refine ⟨h1, ?_⟩
        simp only [List.mem_cons]
        rintro (h3 | h3)
        · exact hs h3.symm
        · exact h2 h3

theorem indexById_some (ids : List String) (id : String) (i : Nat)
    (h : indexById ids id = some i) : i < ids.length ∧ ids.getD i "" = id := by
  rcases indexByIdAux_spec id ids 0 none with h1 | ⟨j, hj, h1, h2⟩
  · rw [indexById] at h; rw [h1] at h; cases h
  · rw [indexById] at h; rw [h1] at h
    cases h
    exact ⟨by omega, by simpa using h2⟩

theorem indexById_isSome (ids : List String) (id : String) (h : id ∈ ids) :
    (indexById ids id).isSome = true := by
  cases hi : indexById ids id with
  | some i => rfl
  | none =>
      obtain ⟨_, h2⟩ := indexByIdAux_none id ids 0 none hi
      exact absurd h h2

theorem indexById_nodup (ids : List String) (i : Nat) (hn : ids.Nodup)
    (hi : i < ids.length) : indexById ids (ids.getD i "") = some i := by
  have hm : ids.getD i "" ∈ ids := getD_mem ids i "" hi
  have hs := indexById_isSome ids (ids.getD i "") hm
  rcases Option.isSome_iff_exists.mp hs with ⟨j, hj⟩
  obtain ⟨hj1, hj2⟩ := indexById_some ids _ j hj
  have := nodup_getD_inj ids "" hn j i hj1 hi hj2
  rw [hj, this]

/-! ### Fold and adjacency lemmas -/

theorem foldl_induction {α β : Type} (f : β → α → β) (l : List α) (b : β)
    (P : β → Prop) (hb : P b) (hf : ∀ bb a, a ∈ l → P bb → P (f bb a)) :
    P (l.foldl f b) := by
  induction l generalizing b with
  | nil => exact hb
  | cons a t ih =>
      exact ih (f b a) (hf b a (List.mem_cons_self a t) hb)
        (fun bb x hx => hf bb x (List.mem_cons_of_mem a hx))

theorem set_oob {α : Type} (l : List α) (n : Nat) (x : α)
    (h : l.length ≤ n) : l.set n x = l := by
  induction l generalizing n with
  | nil => rfl
  | cons a t ih =>
      cases n with
      | zero => simp at h
      | succ n => simp [List.set, ih n (by simpa using h)]

theorem length_pushEdge (adj : List (List Nat)) (a b : Nat) :
    (pushEdge adj a b).length = adj.length := by
  simp [pushEdge]

theorem adjGet_pushEdge_self (adj : List (List Nat)) (a b : Nat)
    (h : a < adj.length) :
    adjGet (pushEdge adj a b) a = adjGet adj a ++ [b] :=
  getD_set_self adj a _ [] h

theorem adjGet_pushEdge_ne (adj : List (List Nat)) (a b v : Nat)
    (h : v ≠ a) : adjGet (pushEdge adj a b) v = adjGet adj v :=
  getD_set_ne adj a v _ [] h

theorem mem_adjGet_pushEdge (adj : List (List Nat)) (a b : Nat)
    (ha : a < adj.length) (v w : Nat) :
    w ∈ adjGet (pushEdge adj a b) v ↔
      w ∈ adjGet adj v ∨ (v = a ∧ w = b) := by
  by_cases hv : v = a
  · subst hv
    rw [adjGet_pushEdge_self adj v b ha]
    simp
  · rw [adjGet_pushEdge_ne adj a b v hv]
    simp [hv]

theorem adjGet_pushEdge_mono (adj : List (List Nat)) (a b v w : Nat)
    (h : w ∈ adjGet adj v) : w ∈ adjGet (pushEdge adj a b) v := by
  by_cases ha : a < adj.length
  · exact (mem_adjGet_pushEdge adj a b ha v w).mpr (Or.inl h)
  · rw [pushEdge, set_oob adj a _ (by omega)]
    exact h

theorem mem_adjGet_adjStep (idx : String → Option Nat)
    (adj : List (List Nat)) (c : Connection) (n : Nat)
    (hlen : adj.length = n) (hidx : ∀ s i, idx s = some i → i < n)
    (v w : Nat) :
    w ∈ adjGet (adjStep idx adj c) v ↔
      w ∈ adjGet adj v ∨
      (∃ a b, idx c.source = some a ∧ idx c.target = some b ∧
        ((v = a ∧ w = b) ∨ (v = b ∧ w = a))) := by
  rcases hs : idx c.source with _ | a <;> rcases ht : idx c.target with _ | b <;>
    simp only [adjStep, hs, ht]
  · simp
  · simp
  · simp
  · have ha : a < n := hidx _ _ hs
    have hb : b < n := hidx _ _ ht
    rw [mem_adjGet_pushEdge _ b a (by rw [length_pushEdge]; omega) v w,
      mem_adjGet_pushEdge adj a b (by omega) v w]
    constructor
    · rintro ((h | h) | h)
      · exact Or.inl h
      · exact Or.inr ⟨a, b, rfl, rfl, Or.inl h⟩
      · exact Or.inr ⟨a, b, rfl, rfl, Or.inr h⟩
    · rintro (h | ⟨a2, b2, ha2, hb2, (h | h)⟩)
      · exact Or.inl (Or.inl h)
      · cases ha2; cases hb2; exact Or.inl (Or.inr h)
      · cases ha2; cases hb2; exact Or.inr h

theorem length_adjStep (idx : String → Option Nat) (adj : List (List Nat))
    (c : Connection) : (adjStep idx adj c).length = adj.length := by
  rcases hs : idx c.source with _ | a <;> rcases ht : idx c.target with _ | b <;>
    simp [adjStep, hs, ht, length_pushEdge]

theorem buildAdj_length (n : Nat) (conns : List Connection)
    (idx : String → Option Nat) : (buildAdj n conns idx).length = n := by
  refine foldl_induction (adjStep idx) conns (List.replicate n [])
    (fun adj => adj.length = n) (by simp) ?_
  intro adj c _ h
  rw [length_adjStep, h]

theorem buildAdj_bounded (n : Nat) (conns : List Connection)
    (idx : String → Option Nat) (hidx : ∀ s i, idx s = some i → i < n) :
    ∀ v w, w ∈ adjGet (buildAdj n conns idx) v → w < n := by
  have h := foldl_induction (adjStep idx) conns (List.replicate n [])
    (fun adj => adj.length = n ∧ ∀ v w, w ∈ adjGet adj v → w < n)
    ⟨by simp, by intro v w hw; rw [adjGet, getD_replicate_nil] at hw; simp at hw⟩
    ?_
  · exact h.2
  · intro adj c _ ⟨h1, h2⟩
    refine ⟨by rw [length_adjStep, h1], ?_⟩
    intro v w hw
    rcases (mem_adjGet_adjStep idx adj c n h1 hidx v w).mp hw with
      h | ⟨a, b, ha, hb, (⟨_, h⟩ | ⟨_, h⟩)⟩
    · exact h2 v w h
    · exact h ▸ hidx _ _ hb
    · exact h ▸ hidx _ _ ha

theorem buildAdj_symm (n : Nat) (conns : List Connection)
    (idx : String → Option Nat) (hidx : ∀ s i, idx s = some i → i < n) :
    ∀ v w, w ∈ adjGet (buildAdj n conns idx) v →
      v ∈ adjGet (buildAdj n conns idx) w := by
  have h := foldl_induction (adjStep idx) conns (List.replicate n [])
    (fun adj => adj.length = n ∧
      ∀ v w, w ∈ adjGet adj v → v ∈ adjGet adj w)
    ⟨by simp, by intro v w hw; rw [adjGet, getD_replicate_nil] at hw; simp at hw⟩
    ?_
  · exact h.2
  · intro adj c _ ⟨h1, h2⟩
    refine ⟨by rw [length_adjStep, h1], ?_⟩
    intro v w hw
    rcases (mem_adjGet_adjStep idx adj c n h1 hidx v w).mp hw with
      h | ⟨a, b, ha, hb, (⟨hv, hww⟩ | ⟨hv, hww⟩)⟩
    · exact (mem_adjGet_adjStep idx adj c n h1 hidx w v).mpr (Or.inl (h2 v w h))
    · exact (mem_adjGet_adjStep idx adj c n h1 hidx w v).mpr
        (Or.inr ⟨a, b, ha, hb, Or.inr ⟨hww, hv⟩⟩)
    · exact (mem_adjGet_adjStep idx adj c n h1 hidx w v).mpr
        (Or.inr ⟨a, b, ha, hb, Or.inl ⟨hww, hv⟩⟩)

theorem buildAdj_sound (n : Nat) (conns : List Connection)
    (idx : String → Option Nat) (hidx : ∀ s i, idx s = some i → i < n) :
    ∀ v w, w ∈ adjGet (buildAdj n conns idx) v →
      ∃ c ∈ conns, (idx c.source = some v ∧ idx c.target = some w) ∨
        (idx c.source = some w ∧ idx c.target = some v) := by
  have h := foldl_induction (adjStep idx) conns (List.replicate n [])
    (fun adj => adj.length = n ∧
      ∀ v w, w ∈ adjGet adj v →
        ∃ c ∈ conns, (idx c.source = some v ∧ idx c.target = some w) ∨
          (idx c.source = some w ∧ idx c.target = some v))
    ⟨by simp, by intro v w hw; rw [adjGet, getD_replicate_nil] at hw; simp at hw⟩
    ?_
  · exact h.2
  · intro adj c hc ⟨h1, h2⟩
    refine ⟨by rw [length_adjStep, h1], ?_⟩
    intro v w hw
    rcases (mem_adjGet_adjStep idx adj c n h1 hidx v w).mp hw with
      h | ⟨a, b, ha, hb, (⟨hv, hww⟩ | ⟨hv, hww⟩)⟩
    · exact h2 v w h
    · exact ⟨c, hc, Or.inl ⟨hv ▸ ha, hww ▸ hb⟩⟩
    · exact ⟨c, hc, Or.inr ⟨hww ▸ ha, hv ▸ hb⟩⟩

theorem foldl_adjStep_mono (idx : String → Option Nat)
    (conns : List Connection) (adj : List (List Nat)) (v w : Nat)
    (h : w ∈ adjGet adj v) : w ∈ adjGet (conns.foldl (adjStep idx) adj) v := by
  induction conns generalizing adj with
  | nil => exact h
  | cons c rest ih =>
      refine ih (adjStep idx adj c) ?_
      rcases hs : idx c.source with _ | a <;> rcases ht : idx c.target with _ | b <;>
        simp only [adjStep, hs, ht]
      · exact h
      · exact h
      · exact h
      · exact adjGet_pushEdge_mono _ b a v w (adjGet_pushEdge_mono adj a b v w h)

theorem buildAdj_complete (n : Nat) (conns : List Connection)
    (idx : String → Option Nat) (hidx : ∀ s i, idx s = some i → i < n)
    (c : Connection) (hc : c ∈ conns) (a b : Nat)
    (ha : idx c.source = some a) (hb : idx c.target = some b) :
    b ∈ adjGet (buildAdj n conns idx) a ∧ a ∈ adjGet (buildAdj n conns idx) b := by
  have key : ∀ (l : List Connection) (adj : List (List Nat)),
      adj.length = n → c ∈ l →
      b ∈ adjGet (l.foldl (adjStep idx) adj) a ∧
      a ∈ adjGet (l.foldl (adjStep idx) adj) b := by
    intro l
    induction l with
    | nil => intro adj _ hmem; simp at hmem
    | cons c0 rest ih =>
        intro adj hlen hmem
        rcases List.mem_cons.mp hmem with he | he
        · subst he
          rw [List.foldl_cons]
          constructor
          · refine foldl_adjStep_mono idx rest _ a b ?_
            exact (mem_adjGet_adjStep idx adj c n hlen hidx a b).mpr
              (Or.inr ⟨a, b, ha, hb, Or.inl ⟨rfl, rfl⟩⟩)
          · refine foldl_adjStep_mono idx rest _ b a ?_
            exact (mem_adjGet_adjStep idx adj c n hlen hidx b a).mpr
              (Or.inr ⟨a, b, ha, hb, Or.inr ⟨rfl, rfl⟩⟩)
        · rw [List.foldl_cons]
          exact ih (adjStep idx adj c0) (by rw [length_adjStep, hlen]) he
  exact key conns (List.replicate n []) (by simp) hc

/-! ### DFS lemmas -/

theorem pushUnvisited_nil (visited : List Bool) (stack : List Nat) :
    pushUnvisited [] visited stack = (visited, stack) := rfl

theorem pushUnvisited_cons (w : Nat) (ws : List Nat) (visited : List Bool)
    (stack : List Nat) :
    pushUnvisited (w :: ws) visited stack =
      if visited.getD w false then pushUnvisited ws visited stack
      else pushUnvisited ws (visited.set w true) (w :: stack) := rfl

theorem dfsAux_stack_nil (adj : List (List Nat)) (fuel : Nat)
    (visited : List Bool) (comp : List Nat) :
    dfsAux adj fuel visited [] comp = (visited, comp) := by
  cases fuel <;> rfl

theorem dfsAux_fuel_zero (adj : List (List Nat)) (visited : List Bool)
    (stack comp : List Nat) :
    dfsAux adj 0 visited stack comp = (visited, comp) := by
  cases stack <;> rfl

theorem dfsAux_step (adj : List (List Nat)) (fuel : Nat)
    (visited : List Bool) (v : Nat) (s comp : List Nat) :
    dfsAux adj (fuel + 1) visited (v :: s) comp =
      dfsAux adj fuel (pushUnvisited (adjGet adj v) visited s).1
        (pushUnvisited (adjGet adj v) visited s).2 (comp ++ [v]) := rfl

theorem pushUnvisited_mono (ws : List Nat) (visited : List Bool)
    (stack : List Nat) (x : Nat) (h : visited.getD x false = true) :
    (pushUnvisited ws visited stack).1.getD x false = true := by
  induction ws generalizing visited stack with
  | nil => exact h
  | cons w t ih =>
      rw [pushUnvisited_cons]
      by_cases hv : visited.getD w false = true
      · rw [if_pos hv]
        exact ih visited stack h
      · rw [if_neg hv]
        refine ih _ _ ?_
        by_cases hx : x = w
        · subst hx
          by_cases hlt : x < visited.length
          · exact getD_set_self visited x true false hlt
          · rw [set_oob visited x true (by omega)]
            exact h
        · rw [getD_set_ne visited w x true false hx]
          exact h

theorem pushUnvisited_stack_sub (ws : List Nat) (visited : List Bool)
    (stack : List Nat) (x : Nat)
    (h : x ∈ (pushUnvisited ws visited stack).2) : x ∈ ws ∨ x ∈ stack := by
  induction ws generalizing visited stack with
  | nil => exact Or.inr h
  | cons w t ih =>
      rw [pushUnvisited_cons] at h
      by_cases hv : visited.getD w false = true
      · rw [if_pos hv] at h
        rcases ih visited stack h with h1 | h1
        · exact Or.inl (List.mem_cons_of_mem w h1)
        · exact Or.inr h1
      · rw [if_neg hv] at h
        rcases ih _ (w :: stack) h with h1 | h1
        · exact Or.inl (List.mem_cons_of_mem w h1)
        · rcases List.mem_cons.mp h1 with h2 | h2
          · exact Or.inl (h2 ▸ List.mem_cons_self w t)
          · exact Or.inr h2

theorem pushUnvisited_char (ws : List Nat) (visited : List Bool)
    (stack : List Nat) (hws : ∀ w ∈ ws, w < visited.length) :
    ∃ fresh,
      (pushUnvisited ws visited stack).2 = fresh ++ stack ∧
      (∀ x, (pushUnvisited ws visited stack).1.getD x false = true ↔
        visited.getD x false = true ∨ x ∈ fresh) ∧
      (∀ x ∈ fresh, x ∈ ws ∧ visited.getD x false = false ∧
        x < visited.length) ∧
      (∀ w ∈ ws, (pushUnvisited ws visited stack).1.getD w false = true) ∧
      (pushUnvisited ws visited stack).1.count false + fresh.length =
        visited.count false ∧
      (pushUnvisited ws visited stack).1.length = visited.length := by
  induction ws generalizing visited stack with
  | nil =>
      exact ⟨[], rfl, by simp [pushUnvisited_nil], by simp,
        by simp, by simp [pushUnvisited_nil], rfl⟩
  | cons w t ih =>
      by_cases hv : visited.getD w false = true
      · obtain ⟨fresh, c1, c2, c3, c4, c5, c6⟩ :=
          ih visited stack (fun x hx => hws x (List.mem_cons_of_mem w hx))
        rw [pushUnvisited_cons, if_pos hv]
        refine ⟨fresh, c1, c2, ?_, ?_, c5, c6⟩
        · exact fun x hx =>
            ⟨List.mem_cons_of_mem w (c3 x hx).1, (c3 x hx).2.1, (c3 x hx).2.2⟩
        · intro w2 hw2
          rcases List.mem_cons.mp hw2 with h2 | h2
          · subst h2
            exact (c2 w2).mpr (Or.inl hv)
          · exact c4 w2 h2
      · have hwlt : w < visited.length := hws w (List.mem_cons_self w t)
        obtain ⟨fresh, c1, c2, c3, c4, c5, c6⟩ :=
          ih (visited.set w true) (w :: stack)
            (fun x hx => by
              rw [List.length_set]
              exact hws x (List.mem_cons_of_mem w hx))
        have hvf : visited.getD w false = false := by
          cases h : visited.getD w false
          · rfl
          · exact absurd h hv
        rw [pushUnvisited_cons, if_neg hv]
        have hsetw : (visited.set w true).getD w false = true :=
          getD_set_self visited w true false hwlt
        have hsetn : ∀ x, x ≠ w →
            (visited.set w true).getD x false = visited.getD x false :=
          fun x hx => getD_set_ne visited w x true false hx
        refine ⟨fresh ++ [w], ?_, ?_, ?_, ?_, ?_, ?_⟩
        · rw [c1]
          simp
        · intro x
          rw [c2 x]
          by_cases hx : x = w
          · subst hx
            constructor
            · intro _
              exact Or.inr (List.mem_append_right fresh
                (List.mem_singleton.mpr rfl))
            · intro _
              exact Or.inl hsetw
          · rw [hsetn x hx]
            simp only [List.mem_append, List.mem_singleton]
            constructor
            · rintro (h | h)
              · exact Or.inl h
              · exact Or.inr (Or.inl h)
            · rintro (h | h | h)
              · exact Or.inl h
              · exact Or.inr h
              · exact absurd h hx
        · intro x hx
          rcases List.mem_append.mp hx with h1 | h1
          · obtain ⟨d1, d2, d3⟩ := c3 x h1
            have hxw : x ≠ w := by
              intro he
              rw [he, hsetw] at d2
              cases d2
            rw [hsetn x hxw] at d2
            rw [List.length_set] at d3
            exact ⟨List.mem_cons_of_mem w d1, d2, d3⟩
          · have hxw : x = w := List.mem_singleton.mp h1
            subst hxw
            exact ⟨List.mem_cons_self x t, hvf, hwlt⟩
        · intro w2 hw2
          rcases List.mem_cons.mp hw2 with h2 | h2
          · subst h2
            exact (c2 w2).mpr (Or.inl hsetw)
          · exact c4 w2 h2
        · have hcnt : (visited.set w true).count false + 1 =
              visited.count false := count_false_set_true visited w hwlt hvf
          rw [List.length_append]
          simp only [List.length_singleton]
          omega
        · rw [c6, List.length_set]

theorem dfsAux_visited_mono (adj : List (List Nat)) (fuel : Nat)
    (visited : List Bool) (stack comp : List Nat) (x : Nat)
    (h : visited.getD x false = true) :
    (dfsAux adj fuel visited stack comp).1.getD x false = true := by
  induction fuel generalizing visited stack comp with
  | zero => cases stack <;> exact h
  | succ fuel ih =>
      cases stack with
      | nil => exact h
      | cons v s =>
          rw [dfsAux_step]
          exact ih _ _ _ (pushUnvisited_mono (adjGet adj v) visited s x h)

theorem dfsAux_reach (adj : List (List Nat)) (fuel : Nat)
    (visited : List Bool) (stack comp : List Nat) (P : Nat → Prop)
    (hstack : ∀ x ∈ stack, P x)
    (hclosed : ∀ v w, P v → w ∈ adjGet adj v → P w)
    (hcomp : ∀ x ∈ comp, P x) :
    ∀ x ∈ (dfsAux adj fuel visited stack comp).2, P x := by
  induction fuel generalizing visited stack comp with
  | zero => cases stack <;> exact hcomp
  | succ fuel ih =>
      cases stack with
      | nil => exact hcomp
      | cons v s =>
          rw [dfsAux_step]
          refine ih _ _ _ ?_ ?_
          · intro x hx
            rcases pushUnvisited_stack_sub (adjGet adj v) visited s x hx with
              h1 | h1
            · exact hclosed v x (hstack v (List.mem_cons_self v s)) h1
            · exact hstack x (List.mem_cons_of_mem v h1)
          · intro x hx
            rcases List.mem_append.mp hx with h1 | h1
            · exact hcomp x h1
            · exact (List.mem_singleton.mp h1) ▸ hstack v (List.mem_cons_self v s)

theorem dfsAux_char (adj : List (List Nat)) (fuel : Nat)
    (visited : List Bool) (stack comp : List Nat)
    (hb : ∀ v w, w ∈ adjGet adj v → w < visited.length)
    (hs : ∀ x ∈ stack, visited.getD x false = true)
    (hsb : ∀ x ∈ stack, x < visited.length)
    (hf : visited.count false + stack.length < fuel) :
    ∃ δ,
      (dfsAux adj fuel visited stack comp).2 = comp ++ δ ∧
      (∀ x ∈ stack, x ∈ δ) ∧
      (∀ x, (dfsAux adj fuel visited stack comp).1.getD x false = true ↔
        visited.getD x false = true ∨ x ∈ δ) ∧
      (∀ x ∈ δ, x ∈ stack ∨ visited.getD x false = false) ∧
      (∀ x ∈ δ, ∀ w ∈ adjGet adj x,
        (dfsAux adj fuel visited stack comp).1.getD w false = true) ∧
      (∀ x ∈ δ, x < visited.length) ∧
      (dfsAux adj fuel visited stack comp).1.length = visited.length := by
  induction fuel generalizing visited stack comp with
  | zero => omega
  | succ fuel ih =>
      cases stack with
      | nil =>
          refine ⟨[], ?_, by simp, ?_, by simp, by simp, by simp, ?_⟩
          · rw [dfsAux_stack_nil]
            exact (List.append_nil comp).symm
          · intro x
            rw [dfsAux_stack_nil]
            simp
          · rw [dfsAux_stack_nil]
      | cons v s =>
          obtain ⟨fresh, pc1, pc2, pc3, pc4, pc5, pc6⟩ :=
            pushUnvisited_char (adjGet adj v) visited s (fun w hw => hb v w hw)
          set pu := pushUnvisited (adjGet adj v) visited s with hpu
          have hb2 : ∀ v2 w, w ∈ adjGet adj v2 → w < pu.1.length := by
            rw [pc6]; exact hb
          have hs2 : ∀ x ∈ pu.2, pu.1.getD x false = true := by
            intro x hx
            rw [pc1] at hx
            rcases List.mem_append.mp hx with h1 | h1
            · exact (pc2 x).mpr (Or.inr h1)
            · exact (pc2 x).mpr (Or.inl (hs x (List.mem_cons_of_mem v h1)))
          have hsb2 : ∀ x ∈ pu.2, x < pu.1.length := by
            intro x hx
            rw [pc1] at hx
            rw [pc6]
            rcases List.mem_append.mp hx with h1 | h1
            · exact (pc3 x h1).2.2
            · exact hsb x (List.mem_cons_of_mem v h1)
          have hf2 : pu.1.count false + pu.2.length < fuel := by
            have hlen : pu.2.length = fresh.length + s.length := by
              rw [pc1, List.length_append]
            simp only [List.length_cons] at hf
            omega
          obtain ⟨δ2, c1, c2, c3, c4, c5, c6, c7⟩ := ih pu.1 pu.2 (comp ++ [v])
            hb2 hs2 hsb2 hf2
          have hvv : visited.getD v false = true := hs v (List.mem_cons_self v s)
          refine ⟨v :: δ2, ?_, ?_, ?_, ?_, ?_, ?_, ?_⟩
          · rw [dfsAux_step, c1, List.append_assoc]
            rfl
          · intro x hx
            rcases List.mem_cons.mp hx with h1 | h1
            · exact h1 ▸ List.mem_cons_self v δ2
            · refine List.mem_cons_of_mem v (c2 x ?_)
              rw [pc1]
              exact List.mem_append_right fresh h1
          · intro x
            rw [dfsAux_step, c3 x, pc2 x]
            constructor
            · rintro ((h | h) | h)
              · exact Or.inl h
              · refine Or.inr (List.mem_cons_of_mem v (c2 x ?_))
                rw [pc1]
                exact List.mem_append_left s h
              · exact Or.inr (List.mem_cons_of_mem v h)
            · rintro (h | h)
              · exact Or.inl (Or.inl h)
              · rcases List.mem_cons.mp h with h1 | h1
                · exact Or.inl (Or.inl (h1 ▸ hvv))
                · exact Or.inr h1
          · intro x hx
            rcases List.mem_cons.mp hx with h1 | h1
            · exact Or.inl (h1 ▸ List.mem_cons_self v s)
            · rcases c4 x h1 with h2 | h2
              · rw [pc1] at h2
                rcases List.mem_append.mp h2 with h3 | h3
                · exact Or.inr (pc3 x h3).2.1
                · exact Or.inl (List.mem_cons_of_mem v h3)
              · cases hvx : visited.getD x false
                · exact Or.inr rfl
                · exfalso
                  have : pu.1.getD x false = true := (pc2 x).mpr (Or.inl hvx)
                  rw [h2] at this
                  cases this
          · intro x hx w hw
            rcases List.mem_cons.mp hx with h1 | h1
            · subst h1
              rw [dfsAux_step]
              exact (c3 w).mpr (Or.inl (pc4 w hw))
            · rw [dfsAux_step]
              exact c5 x h1 w hw
          · intro x hx
            rcases List.mem_cons.mp hx with h1 | h1
            · exact h1 ▸ hsb v (List.mem_cons_self v s)
            · rw [← pc6]
              exact c6 x h1
          · rw [dfsAux_step, c7, pc6]

/-! ### Component-discovery invariants -/

theorem getD_replicate {α : Type} (n x : Nat) (c : α) :
    (List.replicate n c).getD x c = c := by
  induction n generalizing x with
  | zero => rfl
  | succ n ih =>
      cases x with
      | zero => rfl
      | succ x => exact ih x

theorem discoverAux_cons (adj : List (List Nat)) (fuel i : Nat)
    (rest : List Nat) (visited : List Bool) :
    discoverAux adj fuel (i :: rest) visited =
      if visited.getD i false then discoverAux adj fuel rest visited
      else
        (dfsAux adj fuel (visited.set i true) [i] []).2 ::
          discoverAux adj fuel rest
            (dfsAux adj fuel (visited.set i true) [i] []).1 := rfl

theorem discoverAux_inv (adj : List (List Nat)) (n : Nat)
    (hadjb : ∀ v w, w ∈ adjGet adj v → w < n)
    (hsymm : ∀ v w, w ∈ adjGet adj v → v ∈ adjGet adj w) :
    ∀ (todo : List Nat) (visited : List Bool),
    visited.length = n →
    (∀ x, visited.getD x false = true →
      ∀ w ∈ adjGet adj x, visited.getD w false = true) →
    (∀ i ∈ todo, i < n) →
    List.Pairwise (fun c d => ∀ x ∈ c, x ∉ d)
      (discoverAux adj (n + 1) todo visited) ∧
    (∀ comp ∈ discoverAux adj (n + 1) todo visited,
      ∀ v ∈ comp, visited.getD v false = false) ∧
    (∀ comp ∈ discoverAux adj (n + 1) todo visited,
      ∀ v ∈ comp, ∀ w ∈ adjGet adj v, w ∈ comp) ∧
    (∀ i ∈ todo, visited.getD i false = true ∨
      ∃ comp ∈ discoverAux adj (n + 1) todo visited, i ∈ comp) ∧
    (∀ comp ∈ discoverAux adj (n + 1) todo visited, comp ≠ []) ∧
    (∀ comp ∈ discoverAux adj (n + 1) todo visited, ∀ v ∈ comp, v < n) ∧
    (∀ comp ∈ discoverAux adj (n + 1) todo visited,
      ∃ r ∈ comp, ∀ v ∈ comp, AdjReach adj r v) := by
  intro todo
  induction todo with
  | nil =>
      intro visited _ _ _
      refine ⟨List.Pairwise.nil, by simp [discoverAux], by simp [discoverAux],
        by simp, by simp [discoverAux], by simp [discoverAux],
        by simp [discoverAux]⟩
  | cons i rest ih =>
      intro visited hlen hclosed htodo
      have hi : i < n := htodo i (List.mem_cons_self i rest)
      have hrest : ∀ j ∈ rest, j < n :=
        fun j hj => htodo j (List.mem_cons_of_mem i hj)
      by_cases hv : visited.getD i false = true
      · rw [discoverAux_cons, if_pos hv]
        obtain ⟨a, b, c, e, g, hh, f⟩ := ih visited hlen hclosed hrest
        refine ⟨a, b, c, ?_, g, hh, f⟩
        intro j hj
        rcases List.mem_cons.mp hj with h1 | h1
        · exact Or.inl (h1 ▸ hv)
        · exact e j h1
      · have hvf : visited.getD i false = false := by
          cases h : visited.getD i false
          · rfl
          · exact absurd h hv
        have hilen : i < visited.length := by omega
        have hset_self : (visited.set i true).getD i false = true :=
          getD_set_self visited i true false hilen
        have hset_ne : ∀ x, x ≠ i →
            (visited.set i true).getD x false = visited.getD x false :=
          fun x hx => getD_set_ne visited i x true false hx
        have hlen0 : (visited.set i true).length = n := by
          rw [List.length_set]; exact hlen
        have hcount : (visited.set i true).count false + 1 =
            visited.count false := count_false_set_true visited i hilen hvf
        have hcle : visited.count false ≤ n := by
          have := count_false_le_length visited
          omega
        obtain ⟨δ, d1, d2, d3, d4, d5, d6, d7⟩ :=
          dfsAux_char adj (n + 1) (visited.set i true) [i] []
            (by rw [hlen0]; exact hadjb)
            (by intro x hx; rw [List.mem_singleton.mp hx]; exact hset_self)
            (by intro x hx; rw [List.mem_singleton.mp hx]; omega)
            (by simp only [List.length_singleton]; omega)
        set r := dfsAux adj (n + 1) (visited.set i true) [i] [] with hr
        have hδ : r.2 = δ := by rw [d1]; rfl
        have hiδ : i ∈ δ := d2 i (List.mem_singleton.mpr rfl)
        have hfreshδ : ∀ x ∈ δ, visited.getD x false = false := by
          intro x hx
          rcases d4 x hx with h1 | h1
          · rw [List.mem_singleton.mp h1]; exact hvf
          · by_cases hxi : x = i
            · exact hxi ▸ hvf
            · rw [← hset_ne x hxi]; exact h1
        have hVchar : ∀ x, r.1.getD x false = true ↔
            visited.getD x false = true ∨ x ∈ δ := by
          intro x
          rw [d3 x]
          constructor
          · rintro (h1 | h1)
            · by_cases hxi : x = i
              · exact Or.inr (hxi ▸ hiδ)
              · rw [hset_ne x hxi] at h1
                exact Or.inl h1
            · exact Or.inr h1
          · rintro (h1 | h1)
            · have hxi : x ≠ i := by
                intro he
                rw [he, hvf] at h1
                cases h1
              exact Or.inl ((hset_ne x hxi).symm ▸ h1)
            · exact Or.inr h1
        have hδclosed : ∀ v ∈ δ, ∀ w ∈ adjGet adj v, w ∈ δ := by
          intro v hvδ w hw
          have hVw : r.1.getD w false = true := d5 v hvδ w hw
          rcases (hVchar w).mp hVw with h1 | h1
          · exfalso
            have hvw : visited.getD v false = true :=
              hclosed w h1 v (hsymm v w hw)
            rw [hfreshδ v hvδ] at hvw
            cases hvw
          · exact h1
        have hVclosed : ∀ x, r.1.getD x false = true →
            ∀ w ∈ adjGet adj x, r.1.getD w false = true := by
          intro x hx w hw
          rcases (hVchar x).mp hx with h1 | h1
          · exact (hVchar w).mpr (Or.inl (hclosed x h1 w hw))
          · exact (hVchar w).mpr (Or.inr (hδclosed x h1 w hw))
        have hVlen : r.1.length = n := by rw [d7]; exact hlen0
        obtain ⟨a2, b2, c2, e2, g2, h2, f2⟩ := ih r.1 hVlen hVclosed hrest
        rw [discoverAux_cons, if_neg hv, ← hr, hδ]
        refine ⟨?_, ?_, ?_, ?_, ?_, ?_, ?_⟩
        · refine List.Pairwise.cons ?_ a2
          intro comp2 hcomp2 x hxδ hxc2
          have hVx : r.1.getD x false = true := (hVchar x).mpr (Or.inr hxδ)
          rw [b2 comp2 hcomp2 x hxc2] at hVx
          cases hVx
        · intro comp hcomp v hvc
          rcases List.mem_cons.mp hcomp with h1 | h1
          · exact hfreshδ v (h1 ▸ hvc)
          · have hVv : r.1.getD v false = false := b2 comp h1 v hvc
            cases hvv : visited.getD v false
            · rfl
            · exfalso
              have : r.1.getD v false = true := (hVchar v).mpr (Or.inl hvv)
              rw [hVv] at this
              cases this
        · intro comp hcomp v hvc w hw
          rcases List.mem_cons.mp hcomp with h1 | h1
          · subst h1
            exact hδclosed v hvc w hw
          · exact c2 comp h1 v hvc w hw
        · intro j hj
          rcases List.mem_cons.mp hj with h1 | h1
          · exact Or.inr ⟨δ, List.mem_cons_self δ _, h1 ▸ hiδ⟩
          · rcases e2 j h1 with h2 | ⟨comp2, hc2, hjc2⟩
            · rcases (hVchar j).mp h2 with h3 | h3
              · exact Or.inl h3
              · exact Or.inr ⟨δ, List.mem_cons_self δ _, h3⟩
            · exact Or.inr ⟨comp2, List.mem_cons_of_mem δ hc2, hjc2⟩
        · intro comp hcomp
          rcases List.mem_cons.mp hcomp with h1 | h1
          · exact h1 ▸ List.ne_nil_of_mem hiδ
          · exact g2 comp h1
        · intro comp hcomp v hvc
          rcases List.mem_cons.mp hcomp with h1 | h1
          · have := d6 v (h1 ▸ hvc)
            omega
          · exact h2 comp h1 v hvc
        · intro comp hcomp
          rcases List.mem_cons.mp hcomp with h1 | h1
          · subst h1
            refine ⟨i, hiδ, ?_⟩
            have := dfsAux_reach adj (n + 1) (visited.set i true) [i] []
              (AdjReach adj i)
              (by intro x hx
                  rw [List.mem_singleton.mp hx]
                  exact Relation.ReflTransGen.refl)
              (by intro v w hv2 hw
                  exact Relation.ReflTransGen.tail hv2 hw)
              (by simp)
            intro v hvδ
            exact this v (hδ ▸ hvδ)
          · exact f2 comp h1

/-! ### Model-level component facts -/

theorem modelAdj_hidx (m : ProcessModel) :
    ∀ s i, indexById (modelIds m) s = some i → i < (modelIds m).length :=
  fun s i h => (indexById_some (modelIds m) s i h).1

theorem modelAdj_bounded (m : ProcessModel) :
    ∀ v w, w ∈ adjGet (modelAdj m) v → w < (modelIds m).length :=
  buildAdj_bounded (modelIds m).length (pruneConnections m)
    (indexById (modelIds m)) (modelAdj_hidx m)

theorem modelAdj_symm (m : ProcessModel) :
    ∀ v w, w ∈ adjGet (modelAdj m) v → v ∈ adjGet (modelAdj m) w :=
  buildAdj_symm (modelIds m).length (pruneConnections m)
    (indexById (modelIds m)) (modelAdj_hidx m)

theorem modelComponents_spec (m : ProcessModel) :
    List.Pairwise (fun c d => ∀ x ∈ c, x ∉ d) (modelComponents m) ∧
    (∀ comp ∈ modelComponents m, ∀ v ∈ comp,
      ∀ w ∈ adjGet (modelAdj m) v, w ∈ comp) ∧
    (∀ i, i < (modelIds m).length → ∃ comp ∈ modelComponents m, i ∈ comp) ∧
    (∀ comp ∈ modelComponents m, comp ≠ []) ∧
    (∀ comp ∈ modelComponents m, ∀ v ∈ comp, v < (modelIds m).length) ∧
    (∀ comp ∈ modelComponents m, ∃ r ∈ comp,
      ∀ v ∈ comp, AdjReach (modelAdj m) r v) := by
  obtain ⟨a, b, c, e, g, h, f⟩ :=
    discoverAux_inv (modelAdj m) (modelIds m).length (modelAdj_bounded m)
      (modelAdj_symm m) (List.range (modelIds m).length)
      (List.replicate (modelIds m).length false)
      (by simp)
      (by
        intro x hx
        rw [getD_replicate] at hx
        cases hx)
      (by intro i hi; exact List.mem_range.mp hi)
  refine ⟨a, c, ?_, g, h, f⟩
  intro i hi
  rcases e i (List.mem_range.mpr hi) with h1 | h1
  · rw [getD_replicate] at h1
    cases h1
  · exact h1

theorem chooseMain_lt (comps : List (List Nat)) (hasStart : List Nat → Bool)
    (h : comps ≠ []) : chooseMain comps hasStart < comps.length := by
  have hlen : 0 < comps.length := List.length_pos.mpr h
  have key := foldl_induction
    (fun (st : Nat × Bool) i =>
      if st.2 then st
      else if hasStart (comps.getD i []) then (i, true)
      else if (comps.getD i []).length > (comps.getD st.1 []).length then (i, false)
      else st)
    (List.range comps.length) (0, false)
    (fun st => st.1 < comps.length) hlen ?_
  · exact key
  · intro st i hi hst
    have hilt : i < comps.length := List.mem_range.mp hi
    dsimp only
    split_ifs with h1 h2 h3
    · exact hst
    · exact hilt
    · exact hilt
    · exact hst

/-! ### Closest-pair and merge lemmas -/

theorem betterPair_none (a b : Element) :
    betterPair none a b = some (a, b, centerDist2 a b) := rfl

theorem betterPair_some (a0 b0 : Element) (d0 : Rat) (a b : Element) :
    betterPair (some (a0, b0, d0)) a b =
      if centerDist2 a b < d0 then some (a, b, centerDist2 a b)
      else some (a0, b0, d0) := rfl

theorem betterPair_isSome (st : Option (Element × Element × Rat))
    (a b : Element) : (betterPair st a b).isSome = true := by
  rcases st with _ | ⟨a0, b0, d0⟩
  · rfl
  · rw [betterPair_some]
    split <;> rfl

theorem bestPair_isSome (mainEls compEls : List Element)
    (hm : mainEls ≠ []) (hc : compEls ≠ []) :
    (bestPair mainEls compEls).isSome = true := by
  rcases mainEls with _ | ⟨a, restA⟩
  · exact absurd rfl hm
  · rcases compEls with _ | ⟨b, restB⟩
    · exact absurd rfl hc
    · rw [bestPair, List.foldl_cons, List.foldl_cons]
      refine foldl_induction _ restA _
        (fun st : Option (Element × Element × Rat) => st.isSome = true) ?_ ?_
      · refine foldl_induction _ restB _
          (fun st : Option (Element × Element × Rat) => st.isSome = true)
          (betterPair_isSome none a b) ?_
        intro st x _ _
        exact betterPair_isSome st a x
      · intro st x _ hst
        refine foldl_induction _ (b :: restB) st
          (fun st2 : Option (Element × Element × Rat) => st2.isSome = true)
          hst ?_
        intro st2 y _ _
        exact betterPair_isSome st2 x y

theorem bestPair_mem (mainEls compEls : List Element)
    (p : Element × Element × Rat) (h : bestPair mainEls compEls = some p) :
    p.1 ∈ mainEls ∧ p.2.1 ∈ compEls := by
  have key := foldl_induction
    (fun st a => compEls.foldl (fun st' b => betterPair st' a b) st)
    mainEls none
    (fun st => st = none ∨
      ∃ q, st = some q ∧ q.1 ∈ mainEls ∧ q.2.1 ∈ compEls)
    (Or.inl rfl) ?_
  · rw [bestPair] at h
    rcases key with h1 | ⟨q, h1, h2, h3⟩
    · rw [h] at h1; cases h1
    · rw [h] at h1
      cases h1
      exact ⟨h2, h3⟩
  · intro st a ha hst
    refine foldl_induction (fun st' b => betterPair st' a b) compEls st
      (fun st2 => st2 = none ∨
        ∃ q, st2 = some q ∧ q.1 ∈ mainEls ∧ q.2.1 ∈ compEls) hst ?_
    intro st2 b hb hst2
    dsimp only
    rcases st2 with _ | ⟨a0, b0, d0⟩
    · exact Or.inr ⟨_, rfl, ha, hb⟩
    · rw [betterPair_some]
      split
      · exact Or.inr ⟨_, rfl, ha, hb⟩
      · rcases hst2 with h1 | ⟨q, h1, h2, h3⟩
        · cases h1
        · cases h1
          exact Or.inr ⟨_, rfl, h2, h3⟩

theorem addConnection_mem (conns : List Connection) (s t : String) :
    ∃ c ∈ addConnection conns s t, c.source = s ∧ c.target = t := by
  rw [addConnection]
  split
  · next h =>
      rcases List.any_eq_true.mp h with ⟨c, hc, hct⟩
      simp only [Bool.and_eq_true, decide_eq_true_eq] at hct
      exact ⟨c, hc, hct.1, hct.2⟩
  · exact ⟨⟨s, t, none⟩, List.mem_append_right _ (List.mem_singleton.mpr rfl),
      rfl, rfl⟩

theorem addConnection_append (conns : List Connection) (s t : String) :
    ∃ tail, addConnection conns s t = conns ++ tail := by
  rw [addConnection]
  split
  · exact ⟨[], (List.append_nil conns).symm⟩
  · exact ⟨[⟨s, t, none⟩], rfl⟩

theorem mergeStep_append (es : List Element) (ids : List String)
    (mainEls : List Element) (conns : List Connection) (comp : List Nat) :
    ∃ tail, mergeStep es ids mainEls conns comp = conns ++ tail := by
  rw [mergeStep]
  rcases bestPair mainEls (compElements es ids comp) with _ | ⟨a, b, d⟩
  · exact ⟨[], (List.append_nil conns).symm⟩
  · dsimp only
    split
    · exact addConnection_append conns a.id b.id
    · exact addConnection_append conns b.id a.id

theorem mergeLoop_nil (es : List Element) (ids : List String)
    (mainEls : List Element) (mainIdx i : Nat) (conns : List Connection) :
    mergeLoop es ids mainEls mainIdx [] i conns = conns := rfl

theorem mergeLoop_cons (es : List Element) (ids : List String)
    (mainEls : List Element) (mainIdx i : Nat) (comp : List Nat)
    (rest : List (List Nat)) (conns : List Connection) :
    mergeLoop es ids mainEls mainIdx (comp :: rest) i conns =
      mergeLoop es ids mainEls mainIdx rest (i + 1)
        (if i = mainIdx then conns else mergeStep es ids mainEls conns comp) :=
  rfl

theorem mergeLoop_append (es : List Element) (ids : List String)
    (mainEls : List Element) (mainIdx : Nat) :
    ∀ (comps : List (List Nat)) (i : Nat) (conns : List Connection),
    ∃ tail, mergeLoop es ids mainEls mainIdx comps i conns = conns ++ tail := by
  intro comps
  induction comps with
  | nil => exact fun i conns => ⟨[], (List.append_nil conns).symm⟩
  | cons comp rest ih =>
      intro i conns
      rw [mergeLoop_cons]
      by_cases hmi : i = mainIdx
      · rw [if_pos hmi]
        exact ih (i + 1) conns
      · rw [if_neg hmi]
        obtain ⟨t1, ht1⟩ := mergeStep_append es ids mainEls conns comp
        obtain ⟨t2, ht2⟩ := ih (i + 1) (mergeStep es ids mainEls conns comp)
        exact ⟨t1 ++ t2, by rw [ht2, ht1, List.append_assoc]⟩

/-! ### Reachability infrastructure -/

theorem edgeIn_symm (conns : List Connection) (a b : String)
    (h : edgeIn conns a b) : edgeIn conns b a := by
  obtain ⟨c, hc, h1 | h1⟩ := h
  · exact ⟨c, hc, Or.inr h1⟩
  · exact ⟨c, hc, Or.inl h1⟩

theorem edgeIn_mono (conns conns2 : List Connection)
    (hsub : ∀ c ∈ conns, c ∈ conns2) (a b : String)
    (h : edgeIn conns a b) : edgeIn conns2 a b := by
  obtain ⟨c, hc, h1⟩ := h
  exact ⟨c, hsub c hc, h1⟩

theorem reachIn_symm (conns : List Connection) (a b : String)
    (h : ReachIn conns a b) : ReachIn conns b a :=
  Relation.ReflTransGen.symmetric (fun x y hx => edgeIn_symm conns x y hx) h

theorem reachIn_mono (conns conns2 : List Connection)
    (hsub : ∀ c ∈ conns, c ∈ conns2) (a b : String)
    (h : ReachIn conns a b) : ReachIn conns2 a b :=
  Relation.ReflTransGen.mono
    (fun x y hx => edgeIn_mono conns conns2 hsub x y hx) h

theorem adjReach_symm (m : ProcessModel) (v w : Nat)
    (h : AdjReach (modelAdj m) v w) : AdjReach (modelAdj m) w v :=
  Relation.ReflTransGen.symmetric
    (fun x y hx => modelAdj_symm m x y hx) h

theorem adjReach_to_reach (m : ProcessModel) (v w : Nat)
    (h : AdjReach (modelAdj m) v w) :
    ReachIn (pruneConnections m)
      ((modelIds m).getD v "") ((modelIds m).getD w "") := by
  induction h with
  | refl => exact Relation.ReflTransGen.refl
  | tail hab hbc ih =>
      refine Relation.ReflTransGen.tail ih ?_
      obtain ⟨c, hc, h1 | h1⟩ :=
        buildAdj_sound (modelIds m).length (pruneConnections m)
          (indexById (modelIds m)) (modelAdj_hidx m) _ _ hbc
      · exact ⟨c, hc, Or.inl ⟨(indexById_some _ _ _ h1.1).2.symm,
          (indexById_some _ _ _ h1.2).2.symm⟩⟩
      · exact ⟨c, hc, Or.inr ⟨(indexById_some _ _ _ h1.1).2.symm,
          (indexById_some _ _ _ h1.2).2.symm⟩⟩

theorem compElements_id (m : ProcessModel) (comp : List Nat)
    (hb : ∀ v ∈ comp, v < (modelIds m).length) (e : Element)
    (he : e ∈ compElements m.elements (modelIds m) comp) :
    ∃ ix ∈ comp, e.id = (modelIds m).getD ix "" := by
  obtain ⟨ix, hix, heq⟩ := List.mem_map.mp he
  have hmem : (modelIds m).getD ix "" ∈ modelIds m :=
    getD_mem (modelIds m) ix "" (hb ix hix)
  have hsome : (mapGetElement m.elements ((modelIds m).getD ix "")).isSome = true :=
    (mapGetElement_isSome_iff m.elements _).mpr hmem
  obtain ⟨e2, he2⟩ := Option.isSome_iff_exists.mp hsome
  obtain ⟨_, hid⟩ := mapGetElement_some m.elements _ e2 he2
  refine ⟨ix, hix, ?_⟩
  rw [← heq, he2]
  exact hid

theorem compElements_ne_nil (es : List Element) (ids : List String)
    (comp : List Nat) (h : comp ≠ []) : compElements es ids comp ≠ [] := by
  intro h2
  exact h (List.map_eq_nil_iff.mp h2)

theorem mergeStep_eq (es : List Element) (ids : List String)
    (mainEls : List Element) (conns : List Connection) (comp : List Nat)
    (a b : Element) (d : Rat)
    (h : bestPair mainEls (compElements es ids comp) = some (a, b, d)) :
    mergeStep es ids mainEls conns comp =
      if (Backend.getElementCenter a).x ≤ (Backend.getElementCenter b).x then
        addConnection conns a.id b.id
      else addConnection conns b.id a.id := by
  unfold mergeStep
  rw [h]

theorem mergeLoop_provides (es : List Element) (ids : List String)
    (mainEls : List Element) (mainIdx : Nat) (hm : mainEls ≠ []) :
    ∀ (cl : List (List Nat)) (i0 : Nat) (conns : List Connection) (k : Nat),
    k < cl.length → i0 + k ≠ mainIdx → cl.getD k [] ≠ [] →
    ∃ aEl bEl, aEl ∈ mainEls ∧ bEl ∈ compElements es ids (cl.getD k []) ∧
      edgeIn (mergeLoop es ids mainEls mainIdx cl i0 conns) aEl.id bEl.id := by
  intro cl
  induction cl with
  | nil =>
      intro i0 conns k hk
      simp at hk
  | cons comp rest ih =>
      intro i0 conns k hk hne hcne
      rw [mergeLoop_cons]
      cases k with
      | zero =>
          have hne0 : i0 ≠ mainIdx := by simpa using hne
          rw [if_neg hne0]
          have hcne2 : compElements es ids comp ≠ [] :=
            compElements_ne_nil es ids comp hcne
          obtain ⟨p, hp⟩ := Option.isSome_iff_exists.mp
            (bestPair_isSome mainEls (compElements es ids comp) hm hcne2)
          obtain ⟨a, b, d⟩ := p
          obtain ⟨hp1, hp2⟩ := bestPair_mem mainEls _ _ hp
          obtain ⟨tail2, htail2⟩ :=
            mergeLoop_append es ids mainEls mainIdx rest (i0 + 1)
              (mergeStep es ids mainEls conns comp)
          refine ⟨a, b, hp1, hp2, ?_⟩
          rw [htail2]
          refine edgeIn_mono _ _ (fun c hc => List.mem_append_left tail2 hc) _ _ ?_
          rw [mergeStep_eq es ids mainEls conns comp a b d hp]
          split
          · obtain ⟨c, hc, h1, h2⟩ := addConnection_mem conns a.id b.id
            exact ⟨c, hc, Or.inl ⟨h1, h2⟩⟩
          · obtain ⟨c, hc, h1, h2⟩ := addConnection_mem conns b.id a.id
            exact ⟨c, hc, Or.inr ⟨h1, h2⟩⟩
      | succ k =>
          have hne2 : i0 + 1 + k ≠ mainIdx := by omega
          exact ih (i0 + 1) _ k (by simpa using hk) hne2 hcne

/-! ### Repairer branch lemmas -/

theorem ensure_le (m : ProcessModel) (h : (modelComponents m).length ≤ 1) :
    ensureSingleConnectedProcess m =
      ⟨m.processName, m.swimlanes, m.elements, pruneConnections m⟩ := by
  unfold ensureSingleConnectedProcess
  rw [if_pos h]

theorem ensure_gt (m : ProcessModel) (h : ¬(modelComponents m).length ≤ 1) :
    ensureSingleConnectedProcess m =
      ⟨m.processName, m.swimlanes, m.elements,
        mergeLoop m.elements (modelIds m) (modelMainEls m) (modelMainIdx m)
          (modelComponents m) 0 (pruneConnections m)⟩ := by
  unfold ensureSingleConnectedProcess
  rw [if_neg h]

theorem ensure_elements (m : ProcessModel) :
    (ensureSingleConnectedProcess m).elements = m.elements := by
  by_cases h : (modelComponents m).length ≤ 1
  · rw [ensure_le m h]
  · rw [ensure_gt m h]

theorem modelMainIdx_lt (m : ProcessModel) (h : modelComponents m ≠ []) :
    modelMainIdx m < (modelComponents m).length := by
  unfold modelMainIdx
  exact chooseMain_lt _ _ h

theorem ensure_reach_all (m : ProcessModel) :
    ∀ a ∈ modelIds m, ∀ b ∈ modelIds m,
      ReachIn (ensureSingleConnectedProcess m).connections a b := by
  obtain ⟨hpw, hclosed, hcover, hcne, hbnd, hreach⟩ := modelComponents_spec m
  have reach_within : ∀ comp ∈ modelComponents m, ∀ v ∈ comp, ∀ w ∈ comp,
      ReachIn (pruneConnections m)
        ((modelIds m).getD v "") ((modelIds m).getD w "") := by
    intro comp hcomp v hv w hw
    obtain ⟨r, hr, hrv⟩ := hreach comp hcomp
    exact adjReach_to_reach m v w
      (Relation.ReflTransGen.trans (adjReach_symm m r v (hrv v hv)) (hrv w hw))
  by_cases hle : (modelComponents m).length ≤ 1
  · rw [ensure_le m hle]
    intro a ha b hb
    obtain ⟨ia, hia, ha2⟩ := mem_exists_getD (modelIds m) a "" ha
    obtain ⟨ib, hib, hb2⟩ := mem_exists_getD (modelIds m) b "" hb
    obtain ⟨ca, hca, hica⟩ := hcover ia hia
    obtain ⟨cb, hcb, hicb⟩ := hcover ib hib
    have hlen1 : (modelComponents m).length = 1 := by
      have : modelComponents m ≠ [] := List.ne_nil_of_mem hca
      have := List.length_pos.mpr this
      omega
    obtain ⟨c0, hc0⟩ := List.length_eq_one.mp hlen1
    rw [hc0] at hca hcb
    have hcac : ca = c0 := List.mem_singleton.mp hca
    have hcbc : cb = c0 := List.mem_singleton.mp hcb
    subst hcac
    have h := reach_within ca (hc0 ▸ List.mem_singleton.mpr rfl) ia hica ib
      (hcbc ▸ hicb)
    rw [ha2, hb2] at h
    exact h
  · have hlen2 : 2 ≤ (modelComponents m).length := by omega
    have hnonempty : modelComponents m ≠ [] := by
      intro h
      rw [h] at hlen2
      simp at hlen2
    have hmlt : modelMainIdx m < (modelComponents m).length :=
      modelMainIdx_lt m hnonempty
    have hmainmem : (modelComponents m).getD (modelMainIdx m) [] ∈
        modelComponents m := getD_mem _ _ _ hmlt
    have hmainne : (modelComponents m).getD (modelMainIdx m) [] ≠ [] :=
      hcne _ hmainmem
    have hmainelsne : modelMainEls m ≠ [] :=
      compElements_ne_nil m.elements (modelIds m) _ hmainne
    obtain ⟨rM, hrM, hrMreach⟩ := hreach _ hmainmem
    rw [ensure_gt m hle]
    set outConns := mergeLoop m.elements (modelIds m) (modelMainEls m)
      (modelMainIdx m) (modelComponents m) 0 (pruneConnections m) with houtc
    have hsub : ∀ c ∈ pruneConnections m, c ∈ outConns := by
      obtain ⟨tail, htail⟩ := mergeLoop_append m.elements (modelIds m)
        (modelMainEls m) (modelMainIdx m) (modelComponents m) 0
        (pruneConnections m)
      rw [houtc, htail]
      exact fun c hc => List.mem_append_left tail hc
    have hub : ∀ x ∈ modelIds m,
        ReachIn outConns x ((modelIds m).getD rM "") := by
      intro x hx
      obtain ⟨ixx, hixx, hx2⟩ := mem_exists_getD (modelIds m) x "" hx
      obtain ⟨cx, hcx, hixcx⟩ := hcover ixx hixx
      by_cases hcm : cx = (modelComponents m).getD (modelMainIdx m) []
      · have h := reach_within _ hmainmem ixx (hcm ▸ hixcx) rM hrM
        rw [hx2] at h
        exact reachIn_mono _ _ hsub _ _ h
      · obtain ⟨p, hp, hcp⟩ :=
          mem_exists_getD (modelComponents m) cx [] hcx
        have hpm : p ≠ modelMainIdx m := by
          intro he
          rw [he] at hcp
          exact hcm hcp.symm
        obtain ⟨aEl, bEl, haEl, hbEl, hedge⟩ :=
          mergeLoop_provides m.elements (modelIds m) (modelMainEls m)
            (modelMainIdx m) hmainelsne (modelComponents m) 0
            (pruneConnections m) p hp (by omega)
            (by rw [hcp]; exact hcne cx hcx)
        rw [hcp] at hbEl
        obtain ⟨ixb, hixb, hbid⟩ := compElements_id m cx (hbnd cx hcx) bEl hbEl
        obtain ⟨ixa, hixa, haid⟩ := compElements_id m _ (hbnd _ hmainmem)
          aEl haEl
        have r1 : ReachIn outConns x bEl.id := by
          have h := reach_within cx hcx ixx hixcx ixb hixb
          rw [hx2, ← hbid] at h
          exact reachIn_mono _ _ hsub _ _ h
        have r2 : ReachIn outConns bEl.id aEl.id :=
          Relation.ReflTransGen.single (edgeIn_symm _ _ _ hedge)
        have r3 : ReachIn outConns aEl.id ((modelIds m).getD rM "") := by
          have h := reach_within _ hmainmem ixa hixa rM hrM
          rw [← haid] at h
          exact reachIn_mono _ _ hsub _ _ h
        exact Relation.ReflTransGen.trans r1
          (Relation.ReflTransGen.trans r2 r3)
    intro a ha b hb
    exact Relation.ReflTransGen.trans (hub a ha)
      (reachIn_symm _ _ _ (hub b hb))

/-! ### Pruned-connection facts -/

theorem prune_endpoints (m : ProcessModel) (c : Connection)
    (hc : c ∈ pruneConnections m) :
    c.source ∈ modelIds m ∧ c.target ∈ modelIds m := by
  obtain ⟨_, hpred⟩ := List.mem_filter.mp hc
  rw [Bool.and_eq_true] at hpred
  exact ⟨(mapGetElement_isSome_iff m.elements c.source).mp hpred.1,
    (mapGetElement_isSome_iff m.elements c.target).mp hpred.2⟩

theorem mergeLoop_endpoints (m : ProcessModel) :
    ∀ (cl : List (List Nat)) (i0 : Nat) (conns : List Connection),
    (∀ comp ∈ cl, ∀ v ∈ comp, v < (modelIds m).length) →
    (∀ e ∈ modelMainEls m, e.id ∈ modelIds m) →
    (∀ c ∈ conns, c.source ∈ modelIds m ∧ c.target ∈ modelIds m) →
    ∀ c ∈ mergeLoop m.elements (modelIds m) (modelMainEls m)
      (modelMainIdx m) cl i0 conns,
      c.source ∈ modelIds m ∧ c.target ∈ modelIds m := by
  intro cl
  induction cl with
  | nil => intro i0 conns _ _ hconns; exact hconns
  | cons comp rest ih =>
      intro i0 conns hbnd hmain hconns
      rw [mergeLoop_cons]
      refine ih (i0 + 1) _
        (fun cp hcp => hbnd cp (List.mem_cons_of_mem comp hcp)) hmain ?_
      by_cases hmi : i0 = modelMainIdx m
      · rw [if_pos hmi]
        exact hconns
      · rw [if_neg hmi]
        rcases hbp : bestPair (modelMainEls m)
            (compElements m.elements (modelIds m) comp) with _ | ⟨a, b, d⟩
        · rw [mergeStep, hbp]
          exact hconns
        · obtain ⟨ha, hb⟩ := bestPair_mem _ _ _ hbp
          have haid : a.id ∈ modelIds m := hmain a ha
          have hbid : b.id ∈ modelIds m := by
            obtain ⟨ix, hix, hid⟩ := compElements_id m comp
              (hbnd comp (List.mem_cons_self comp rest)) b hb
            rw [hid]
            exact getD_mem _ _ _ (hbnd comp (List.mem_cons_self comp rest) ix hix)
          have hadd : ∀ s t, s ∈ modelIds m → t ∈ modelIds m →
              ∀ c ∈ addConnection conns s t,
                c.source ∈ modelIds m ∧ c.target ∈ modelIds m := by
            intro s t hsm htm c hcm
            rw [addConnection] at hcm
            split at hcm
            · exact hconns c hcm
            · rcases List.mem_append.mp hcm with h1 | h1
              · exact hconns c h1
              · rw [List.mem_singleton.mp h1]
                exact ⟨hsm, htm⟩
          rw [mergeStep_eq _ _ _ _ _ a b d hbp]
          split
          · exact hadd a.id b.id haid hbid
          · exact hadd b.id a.id hbid haid

theorem modelMainEls_ids (m : ProcessModel) :
    ∀ e ∈ modelMainEls m, e.id ∈ modelIds m := by
  intro e he
  by_cases hmlt : modelMainIdx m < (modelComponents m).length
  · obtain ⟨_, _, _, _, hbnd, _⟩ := modelComponents_spec m
    have hmem := getD_mem (modelComponents m) (modelMainIdx m) [] hmlt
    obtain ⟨ix, hix, hid⟩ := compElements_id m _ (hbnd _ hmem) e he
    rw [hid]
    exact getD_mem _ _ _ (hbnd _ hmem ix hix)
  · obtain ⟨_, _, _, _, hbnd, _⟩ := modelComponents_spec m
    have : (modelComponents m).getD (modelMainIdx m) [] = [] := by
      have : (modelComponents m).length ≤ modelMainIdx m := by omega
      rcases h2 : ((modelComponents m).getD (modelMainIdx m) []) with _ | ⟨x, t⟩
      · rfl
      · exfalso
        have hx : x ∈ (modelComponents m).getD (modelMainIdx m) [] := by
          rw [h2]; exact List.mem_cons_self x t
        rw [List.getD_eq_default] at hx
        · cases hx
        · omega
    rw [modelMainEls, this] at he
    cases he

/-- C1: for every diagram with at least two elements and any connection
set, the undirected graph over the repaired output's elements, with the
output's connections as edges (direction ignored), is a single connected
component: every two element ids are joined by an undirected path. -/
theorem connectivity_after_repair (m : ProcessModel)
    (h2 : 2 ≤ m.elements.length) :
    ∀ a ∈ (ensureSingleConnectedProcess m).elements.map (fun e => e.id),
    ∀ b ∈ (ensureSingleConnectedProcess m).elements.map (fun e => e.id),
      ReachIn (ensureSingleConnectedProcess m).connections a b := by
  intro a ha b hb
  rw [ensure_elements] at ha hb
  exact ensure_reach_all m a ha b hb

theorem connectivity_after_repair_witness :
    2 ≤ wMerge.elements.length ∧
    ReachIn (ensureSingleConnectedProcess wMerge).connections "s1" "e1" := by
  refine ⟨by decide, ?_⟩
  refine connectivity_after_repair wMerge (by decide) "s1" ?_ "e1" ?_
  · decide
  · decide

/-- C3: every connection in the repaired output references existing
element ids: both its source and its target occur among the diagram's
element ids, for every input diagram. -/
theorem reference_integrity (m : ProcessModel) (c : Connection)
    (hc : c ∈ (ensureSingleConnectedProcess m).connections) :
    c.source ∈ modelIds m ∧ c.target ∈ modelIds m := by
  by_cases hle : (modelComponents m).length ≤ 1
  · rw [ensure_le m hle] at hc
    exact prune_endpoints m c hc
  · rw [ensure_gt m hle] at hc
    obtain ⟨_, _, _, _, hbnd, _⟩ := modelComponents_spec m
    exact mergeLoop_endpoints m (modelComponents m) 0 (pruneConnections m)
      hbnd (modelMainEls_ids m) (prune_endpoints m) c hc

theorem reference_integrity_witness :
    (⟨"s1", "t1", none⟩ : Connection) ∈
      (ensureSingleConnectedProcess wMerge).connections ∧
    ("s1" ∈ modelIds wMerge ∧ "t1" ∈ modelIds wMerge) := by
  refine ⟨by with_unfolding_all decide,
    reference_integrity wMerge ⟨"s1", "t1", none⟩
      (by with_unfolding_all decide)⟩

/-- C5: the repairer preserves processName, swimlanes and elements, and
its output connection list is exactly the pruned input connections, in
their original order, followed by the connections added by the merge
loop in component-processing order. -/
theorem frame_effect (m : ProcessModel) :
    (ensureSingleConnectedProcess m).processName = m.processName ∧
    (ensureSingleConnectedProcess m).swimlanes = m.swimlanes ∧
    (ensureSingleConnectedProcess m).elements = m.elements ∧
    ∃ added, (ensureSingleConnectedProcess m).connections =
      pruneConnections m ++ added := by
  by_cases hle : (modelComponents m).length ≤ 1
  · rw [ensure_le m hle]
    exact ⟨rfl, rfl, rfl, [], (List.append_nil _).symm⟩
  · rw [ensure_gt m hle]
    refine ⟨rfl, rfl, rfl, ?_⟩
    exact mergeLoop_append m.elements (modelIds m) (modelMainEls m)
      (modelMainIdx m) (modelComponents m) 0 (pruneConnections m)

/-! ### Boundary geometry and center computation -/

/-- C9: whenever the other endpoint's center coincides with the element's
own center (`d = (0, 0)`), the boundary resolver returns the element's
center unchanged, for every element type. The square-root function is
universally quantified, so the degenerate branch performs no root and no
division; the function is total, so no error is surfaced. -/
theorem degenerate_geometry_center (sqrtFn : Rat → Rat) (el : Element)
    (renderPos : Pt) :
    Frontend.getBoundaryPoint sqrtFn el renderPos
      (Frontend.getElementCenter el (some renderPos)) =
      Frontend.getElementCenter el (some renderPos) := by
  unfold Frontend.getBoundaryPoint
  simp

/-- C6 counterexample: two diagrams that agree on processName, swimlanes,
connections and on every element's id, type and label — differing only in
stored element positions — for which the repairer adds different
connections (`s → t` versus `t → s`), because the backend's
`getElementCenter` reads the stored position, not the layout position. -/
theorem repairer_reads_stored_positions_cex :
    cexStoredPosA.processName = cexStoredPosB.processName ∧
    cexStoredPosA.swimlanes = cexStoredPosB.swimlanes ∧
    cexStoredPosA.connections = cexStoredPosB.connections ∧
    cexStoredPosA.elements.map (fun e => (e.id, e.type, e.label)) =
      cexStoredPosB.elements.map (fun e => (e.id, e.type, e.label)) ∧
    (ensureSingleConnectedProcess cexStoredPosA).connections ≠
      (ensureSingleConnectedProcess cexStoredPosB).connections := by
  refine ⟨rfl, rfl, rfl, rfl, ?_⟩
  with_unfolding_all decide

/-- C6 amended: the Connectivity Repairer computes element centers with
the same per-type offsets as the Boundary Geometry Resolver's center
computation, but applies them to the element's *stored* position (the
resolver invoked with no render position), so its merge decisions depend
on stored positions. -/
theorem backend_center_is_stored_center (el : Element) :
    Backend.getElementCenter el = Frontend.getElementCenter el none := by
  rcases el with ⟨id, t, lab, pos⟩
  cases t <;> rfl

set_option maxRecDepth 8000 in
/-- C8 counterexample: in the spec's lane-packing scenario the engine
assigns `t1` the x-position 160, not 168: the left margin in the code is
`laneGap + laneHeaderWidth + 16 = 160`. -/
theorem lane_packing_scenario_cex :
    (layoutMap laneScenario "t1").map (fun p => p.x) = some 160 ∧
    (160 : Rat) ≠ 168 := by
  with_unfolding_all decide

set_option maxRecDepth 8000 in
/-- C8 amended: for a lane with ordered tasks `t1, t2, t3` (width 160),
minimum gap 32 and the engine's actual left margin 160, the render
x-positions are 160, 352 and 544 (all at the task band y = 64). -/
theorem lane_packing_scenario :
    layoutMap laneScenario "t1" = some ⟨160, 64⟩ ∧
    layoutMap laneScenario "t2" = some ⟨352, 64⟩ ∧
    layoutMap laneScenario "t3" = some ⟨544, 64⟩ := by
  with_unfolding_all decide

set_option maxRecDepth 8000 in
/-- C7 counterexample: in a lane with six tasks the packing cursor passes
the right-edge cap `canvas_width − right_margin − width = 1008`, so `t6`
is clamped to x = 1008 while `t5` sits at x = 928: their horizontal
intervals `[928, 1088]` and `[1008, 1168]` overlap instead of being
separated by the 32-pixel minimum gap. -/
theorem layout_overlap_cex :
    ("t5" : String) ≠ "t6" ∧
    "t5" ∈ laneMembers cexOverflow 0 ∧
    "t6" ∈ laneMembers cexOverflow 0 ∧
    layoutMap cexOverflow "t5" = some ⟨928, 64⟩ ∧
    layoutMap cexOverflow "t6" = some ⟨1008, 64⟩ ∧
    ¬(928 + 160 + minElementGap ≤ (1008 : Rat)) ∧
    ¬(1008 + 160 + minElementGap ≤ (928 : Rat)) := by
  with_unfolding_all decide

/-! ### Merge-count lemmas (C2) -/

theorem getD_eq_get {α : Type} (l : List α) (i : Nat) (d : α)
    (h : i < l.length) : l.getD i d = l.get ⟨i, h⟩ := by
  induction l generalizing i with
  | nil => simp at h
  | cons a t ih =>
      cases i with
      | zero => rfl
      | succ i => exact ih i (by simpa using h)

theorem comps_disjoint (m : ProcessModel) :
    ∀ p q, p < (modelComponents m).length → q < (modelComponents m).length →
    p ≠ q → ∀ x, x ∈ (modelComponents m).getD p [] →
      x ∉ (modelComponents m).getD q [] := by
  have hpw := (modelComponents_spec m).1
  rw [List.pairwise_iff_get] at hpw
  intro p q hp hq hne x hxp hxq
  rcases Nat.lt_or_ge p q with h | h
  · exact hpw ⟨p, hp⟩ ⟨q, hq⟩ h x
      (by rw [← getD_eq_get (modelComponents m) p [] hp]; exact hxp)
      (by rw [← getD_eq_get (modelComponents m) q [] hq]; exact hxq)
  · have hlt : q < p := by omega
    exact hpw ⟨q, hq⟩ ⟨p, hp⟩ hlt x
      (by rw [← getD_eq_get (modelComponents m) q [] hq]; exact hxq)
      (by rw [← getD_eq_get (modelComponents m) p [] hp]; exact hxp)

theorem addConnection_of_not_mem (conns : List Connection) (s t : String)
    (h : ∀ c ∈ conns, ¬(c.source = s ∧ c.target = t)) :
    addConnection conns s t = conns ++ [⟨s, t, none⟩] := by
  rw [addConnection, if_neg]
  intro hany
  obtain ⟨c, hc, hct⟩ := List.any_eq_true.mp hany
  simp only [Bool.and_eq_true, decide_eq_true_eq] at hct
  exact h c hc hct

theorem mem_compIdsAt (m : ProcessModel) (p : Nat) (x : String) :
    x ∈ compIdsAt m p ↔
      ∃ j ∈ (modelComponents m).getD p [], (modelIds m).getD j "" = x :=
  List.mem_map

theorem mergeLoop_count_aux (m : ProcessModel) (hn : (modelIds m).Nodup)
    (hmlt : modelMainIdx m < (modelComponents m).length) :
    ∀ (cl : List (List Nat)) (k : Nat) (added : List Connection),
    (modelComponents m).drop k = cl →
    (∀ c ∈ added, ∃ q, q < k ∧ q < (modelComponents m).length ∧
      q ≠ modelMainIdx m ∧
      ((c.source ∈ compIdsAt m (modelMainIdx m) ∧ c.target ∈ compIdsAt m q) ∨
       (c.target ∈ compIdsAt m (modelMainIdx m) ∧ c.source ∈ compIdsAt m q))) →
    ∃ added2,
      mergeLoop m.elements (modelIds m) (modelMainEls m) (modelMainIdx m)
        cl k (pruneConnections m ++ added) =
        pruneConnections m ++ added2 ∧
      added2.length = added.length +
        (((modelComponents m).length - k) -
          (if k ≤ modelMainIdx m then 1 else 0)) ∧
      (∀ c ∈ added2, ∃ q, q < (modelComponents m).length ∧
        q ≠ modelMainIdx m ∧
        ((c.source ∈ compIdsAt m (modelMainIdx m) ∧ c.target ∈ compIdsAt m q) ∨
         (c.target ∈ compIdsAt m (modelMainIdx m) ∧
          c.source ∈ compIdsAt m q))) := by
  obtain ⟨hpw, hclosed, hcover, hcne, hbnd, hreach⟩ := modelComponents_spec m
  have hmainmem : (modelComponents m).getD (modelMainIdx m) [] ∈
      modelComponents m := getD_mem _ _ _ hmlt
  have hmainelsne : modelMainEls m ≠ [] :=
    compElements_ne_nil m.elements (modelIds m) _ (hcne _ hmainmem)
  intro cl
  induction cl with
  | nil =>
      intro k added hcl hadded
      have hlek : (modelComponents m).length ≤ k := List.drop_eq_nil_iff.mp hcl
      refine ⟨added, mergeLoop_nil _ _ _ _ _ _, ?_, ?_⟩
      · have h0 : (modelComponents m).length - k = 0 := by omega
        rw [h0]
        simp
      · intro c hc
        obtain ⟨q, _, hqlen, hqm, hshape⟩ := hadded c hc
        exact ⟨q, hqlen, hqm, hshape⟩
  | cons comp rest ih =>
      intro k added hcl hadded
      have hklt : k < (modelComponents m).length := by
        by_contra hge
        rw [List.drop_eq_nil_of_le (by omega)] at hcl
        cases hcl
      have hsplit : (modelComponents m).drop k =
          (modelComponents m).getD k [] :: (modelComponents m).drop (k + 1) :=
        drop_eq_getD_cons _ _ _ hklt
      rw [hcl] at hsplit
      have hcomp : comp = (modelComponents m).getD k [] := by
        injection hsplit with h1 h2
      have hrest : (modelComponents m).drop (k + 1) = rest := by
        injection hsplit with h1 h2
        exact h2.symm
      rw [mergeLoop_cons]
      by_cases hkm : k = modelMainIdx m
      · rw [if_pos hkm]
        obtain ⟨added2, r1, r2, r3⟩ := ih (k + 1) added hrest
          (fun c hc => by
            obtain ⟨q, hqk, hqlen, hqm, hshape⟩ := hadded c hc
            exact ⟨q, by omega, hqlen, hqm, hshape⟩)
        refine ⟨added2, r1, ?_, r3⟩
        rw [r2]
        have hind1 : (if k ≤ modelMainIdx m then 1 else 0) = 1 := by
          rw [if_pos (by omega)]
        have hind2 : (if k + 1 ≤ modelMainIdx m then 1 else 0) = 0 := by
          rw [if_neg (by omega)]
        rw [hind1, hind2]
        omega
      · rw [if_neg hkm]
        have hcompmem : comp ∈ modelComponents m :=
          hcomp ▸ getD_mem _ _ _ hklt
        have hcompne : comp ≠ [] := hcne comp hcompmem
        obtain ⟨p, hp⟩ := Option.isSome_iff_exists.mp
          (bestPair_isSome (modelMainEls m)
            (compElements m.elements (modelIds m) comp) hmainelsne
            (compElements_ne_nil _ _ _ hcompne))
        obtain ⟨a, b, d⟩ := p
        obtain ⟨ha, hb⟩ := bestPair_mem _ _ _ hp
        obtain ⟨ixa, hixa, haid⟩ := compElements_id m _ (hbnd _ hmainmem) a ha
        obtain ⟨ixb, hixb, hbid⟩ := compElements_id m comp
          (hbnd comp hcompmem) b hb
        have hixblt : ixb < (modelIds m).length := hbnd comp hcompmem ixb hixb
        have hixalt : ixa < (modelIds m).length := hbnd _ hmainmem ixa hixa
        have hixbk : ixb ∈ (modelComponents m).getD k [] := hcomp ▸ hixb
        -- b's index cannot lie in any other component
        have hb_not_other : ∀ p2, p2 < (modelComponents m).length →
            p2 ≠ k → ixb ∉ (modelComponents m).getD p2 [] := by
          intro p2 hp2 hp2k
          exact comps_disjoint m k p2 hklt hp2 (fun he => hp2k he.symm)
            ixb hixbk
        -- no surviving connection joins a.id and b.id in either direction
        have hno_surv : ∀ c ∈ pruneConnections m,
            ¬((c.source = a.id ∧ c.target = b.id) ∨
              (c.source = b.id ∧ c.target = a.id)) := by
          intro c hc hdir
          have hia : indexById (modelIds m) a.id = some ixa := by
            rw [haid]
            exact indexById_nodup (modelIds m) ixa hn hixalt
          have hib : indexById (modelIds m) b.id = some ixb := by
            rw [hbid]
            exact indexById_nodup (modelIds m) ixb hn hixblt
          have hedge : ixb ∈ adjGet (modelAdj m) ixa := by
            rcases hdir with ⟨h1, h2⟩ | ⟨h1, h2⟩
            · exact (buildAdj_complete (modelIds m).length (pruneConnections m)
                (indexById (modelIds m)) (modelAdj_hidx m) c hc ixa ixb
                (h1 ▸ hia) (h2 ▸ hib)).1
            · exact (buildAdj_complete (modelIds m).length (pruneConnections m)
                (indexById (modelIds m)) (modelAdj_hidx m) c hc ixb ixa
                (h1 ▸ hib) (h2 ▸ hia)).2
          have hmain2 : ixb ∈ (modelComponents m).getD (modelMainIdx m) [] :=
            hclosed _ hmainmem ixa hixa ixb hedge
          exact hb_not_other (modelMainIdx m) hmlt
            (fun he => hkm he.symm) hmain2
        -- b's id cannot occur as an endpoint of a previously added connection
        have hb_not_added : ∀ x, x ∈ compIdsAt m (modelMainIdx m) ∨
            (∃ q, q < k ∧ q < (modelComponents m).length ∧
              x ∈ compIdsAt m q) → x ≠ b.id := by
          rintro x hx he
          subst he
          rcases hx with hx | ⟨q, hqk, hqlen, hx⟩
          · obtain ⟨j, hj, hjid⟩ := (mem_compIdsAt m _ _).mp hx
            have hjlt : j < (modelIds m).length := hbnd _ hmainmem j hj
            have : j = ixb := by
              refine nodup_getD_inj (modelIds m) "" hn j ixb hjlt hixblt ?_
              rw [hjid, hbid]
            rw [this] at hj
            exact hb_not_other (modelMainIdx m) hmlt
              (fun he2 => hkm he2.symm) hj
          · obtain ⟨j, hj, hjid⟩ := (mem_compIdsAt m _ _).mp hx
            have hqmem : (modelComponents m).getD q [] ∈ modelComponents m :=
              getD_mem _ _ _ hqlen
            have hjlt : j < (modelIds m).length := hbnd _ hqmem j hj
            have : j = ixb := by
              refine nodup_getD_inj (modelIds m) "" hn j ixb hjlt hixblt ?_
              rw [hjid, hbid]
            rw [this] at hj
            exact hb_not_other q hqlen (by omega) hj
        have hno_cur : ∀ (s t : String),
            ((s = a.id ∧ t = b.id) ∨ (s = b.id ∧ t = a.id)) →
            ∀ c ∈ pruneConnections m ++ added,
              ¬(c.source = s ∧ c.target = t) := by
          rintro s t hst c hc ⟨hcs, hct⟩
          rcases List.mem_append.mp hc with hc1 | hc1
          · refine hno_surv c hc1 ?_
            rcases hst with ⟨h1, h2⟩ | ⟨h1, h2⟩
            · exact Or.inl ⟨by rw [hcs, h1], by rw [hct, h2]⟩
            · exact Or.inr ⟨by rw [hcs, h1], by rw [hct, h2]⟩
          · obtain ⟨q, hqk, hqlen, hqm, hshape⟩ := hadded c hc1
            rcases hst with ⟨h1, h2⟩ | ⟨h1, h2⟩
            · -- c.target = b.id
              rcases hshape with ⟨hs1, hs2⟩ | ⟨hs1, hs2⟩
              · exact hb_not_added c.target
                  (Or.inr ⟨q, hqk, hqlen, hs2⟩) (by rw [hct, h2])
              · exact hb_not_added c.target (Or.inl hs1) (by rw [hct, h2])
            · -- c.source = b.id
              rcases hshape with ⟨hs1, hs2⟩ | ⟨hs1, hs2⟩
              · exact hb_not_added c.source (Or.inl hs1) (by rw [hcs, h1])
              · exact hb_not_added c.source
                  (Or.inr ⟨q, hqk, hqlen, hs2⟩) (by rw [hcs, h1])
        have haidmem : a.id ∈ compIdsAt m (modelMainIdx m) :=
          (mem_compIdsAt m _ _).mpr ⟨ixa, hixa, haid.symm⟩
        have hbidmem : b.id ∈ compIdsAt m k :=
          (mem_compIdsAt m _ _).mpr ⟨ixb, hixbk, hbid.symm⟩
        have hstep : ∃ newc : Connection,
            mergeStep m.elements (modelIds m) (modelMainEls m)
              (pruneConnections m ++ added) comp =
              pruneConnections m ++ (added ++ [newc]) ∧
            ((newc.source ∈ compIdsAt m (modelMainIdx m) ∧
              newc.target ∈ compIdsAt m k) ∨
             (newc.target ∈ compIdsAt m (modelMainIdx m) ∧
              newc.source ∈ compIdsAt m k)) := by
          rw [mergeStep_eq _ _ _ _ _ a b d hp]
          split
          · refine ⟨⟨a.id, b.id, none⟩, ?_, Or.inl ⟨haidmem, hbidmem⟩⟩
            rw [addConnection_of_not_mem _ _ _
              (hno_cur a.id b.id (Or.inl ⟨rfl, rfl⟩)), List.append_assoc]
          · refine ⟨⟨b.id, a.id, none⟩, ?_, Or.inr ⟨haidmem, hbidmem⟩⟩
            rw [addConnection_of_not_mem _ _ _
              (hno_cur b.id a.id (Or.inr ⟨rfl, rfl⟩)), List.append_assoc]
        obtain ⟨newc, hstep1, hstep2⟩ := hstep
        rw [hstep1]
        have hadded2 : ∀ c ∈ added ++ [newc], ∃ q, q < k + 1 ∧
            q < (modelComponents m).length ∧ q ≠ modelMainIdx m ∧
            ((c.source ∈ compIdsAt m (modelMainIdx m) ∧
              c.target ∈ compIdsAt m q) ∨
             (c.target ∈ compIdsAt m (modelMainIdx m) ∧
              c.source ∈ compIdsAt m q)) := by
          intro c hc
          rcases List.mem_append.mp hc with h1 | h1
          · obtain ⟨q, hqk, hqlen, hqm, hshape⟩ := hadded c h1
            exact ⟨q, by omega, hqlen, hqm, hshape⟩
          · rw [List.mem_singleton.mp h1]
            exact ⟨k, by omega, hklt, hkm, hstep2⟩
        obtain ⟨added2, r1, r2, r3⟩ := ih (k + 1) (added ++ [newc]) hrest hadded2
        refine ⟨added2, r1, ?_, r3⟩
        rw [r2, List.length_append, List.length_singleton]
        split_ifs <;> omega

/-- C2: for every structurally valid diagram (unique element ids), the
repairer's output is the pruned connections followed by exactly
`(number of discovered components − 1)` added connections, each joining
the main component's ids directly to the ids of one non-main component. -/
theorem merge_minimality (m : ProcessModel) (hn : (modelIds m).Nodup) :
    ∃ added,
      (ensureSingleConnectedProcess m).connections =
        pruneConnections m ++ added ∧
      added.length = (modelComponents m).length - 1 ∧
      ∀ c ∈ added, ∃ q, q < (modelComponents m).length ∧
        q ≠ modelMainIdx m ∧
        ((c.source ∈ compIdsAt m (modelMainIdx m) ∧
          c.target ∈ compIdsAt m q) ∨
         (c.target ∈ compIdsAt m (modelMainIdx m) ∧
          c.source ∈ compIdsAt m q)) := by
  by_cases hle : (modelComponents m).length ≤ 1
  · rw [ensure_le m hle]
    exact ⟨[], (List.append_nil _).symm, by simp; omega, by simp⟩
  · rw [ensure_gt m hle]
    have hnonempty : modelComponents m ≠ [] := by
      intro h
      rw [h] at hle
      simp at hle
    have hmlt := modelMainIdx_lt m hnonempty
    obtain ⟨added2, r1, r2, r3⟩ := mergeLoop_count_aux m hn hmlt
      (modelComponents m) 0 [] (by simp) (by simp)
    rw [List.append_nil] at r1
    refine ⟨added2, r1, ?_, r3⟩
    rw [r2, if_pos (Nat.zero_le _)]
    simp

theorem merge_minimality_witness :
    ∃ added,
      (ensureSingleConnectedProcess wMerge).connections =
        pruneConnections wMerge ++ added ∧
      added.length = (modelComponents wMerge).length - 1 ∧
      ∀ c ∈ added, ∃ q, q < (modelComponents wMerge).length ∧
        q ≠ modelMainIdx wMerge ∧
        ((c.source ∈ compIdsAt wMerge (modelMainIdx wMerge) ∧
          c.target ∈ compIdsAt wMerge q) ∨
         (c.target ∈ compIdsAt wMerge (modelMainIdx wMerge) ∧
          c.source ∈ compIdsAt wMerge q)) :=
  merge_minimality wMerge (by decide)

/-! ### Idempotence (C4) -/

theorem reach_index_closed (m : ProcessModel) (hn : (modelIds m).Nodup)
    (comp : List Nat) (hcomp : comp ∈ modelComponents m)
    (x y : String) (hreach : ReachIn (pruneConnections m) x y) :
    ∀ jx, jx < (modelIds m).length → (modelIds m).getD jx "" = x →
      jx ∈ comp →
    ∀ jy, jy < (modelIds m).length → (modelIds m).getD jy "" = y →
      jy ∈ comp := by
  induction hreach with
  | refl =>
      intro jx hjx hjxid hjxc jy hjy hjyid
      have he : jx = jy :=
        nodup_getD_inj (modelIds m) "" hn jx jy hjx hjy
          (by rw [hjxid, hjyid])
      exact he ▸ hjxc
  | @tail b c hab hbc ih =>
      intro jx hjx hjxid hjxc jy hjy hjyid
      have hbmem : b ∈ modelIds m := by
        obtain ⟨conn, hconnmem, hdir⟩ := hbc
        have hep := prune_endpoints m conn hconnmem
        rcases hdir with ⟨h1, _⟩ | ⟨_, h2⟩
        · exact h1 ▸ hep.1
        · exact h2 ▸ hep.2
      obtain ⟨jb, hjb⟩ := Option.isSome_iff_exists.mp
        (indexById_isSome (modelIds m) b hbmem)
      obtain ⟨hjblt, hjbid⟩ := indexById_some (modelIds m) b jb hjb
      have hjbc : jb ∈ comp := ih jx hjx hjxid hjxc jb hjblt hjbid
      have hjy2 : indexById (modelIds m) c = some jy := by
        rw [← hjyid]
        exact indexById_nodup (modelIds m) jy hn hjy
      obtain ⟨conn, hconnmem, hdir⟩ := hbc
      have hedge : jy ∈ adjGet (modelAdj m) jb := by
        rcases hdir with ⟨h1, h2⟩ | ⟨h1, h2⟩
        · exact (buildAdj_complete (modelIds m).length (pruneConnections m)
            (indexById (modelIds m)) (modelAdj_hidx m) conn hconnmem jb jy
            (by rw [h1]; exact hjb) (by rw [h2]; exact hjy2)).1
        · exact (buildAdj_complete (modelIds m).length (pruneConnections m)
            (indexById (modelIds m)) (modelAdj_hidx m) conn hconnmem jy jb
            (by rw [h1]; exact hjy2) (by rw [h2]; exact hjb)).2
      exact (modelComponents_spec m).2.1 comp hcomp jb hjbc jy hedge

/-- C4: repairing an already-connected, reference-clean diagram with
unique element ids returns it unchanged: identical elements, identical
connections, identical order. -/
theorem repair_idempotent (m : ProcessModel) (hn : (modelIds m).Nodup)
    (hclean : ∀ c ∈ m.connections,
      c.source ∈ modelIds m ∧ c.target ∈ modelIds m)
    (hconn : ∀ a ∈ modelIds m, ∀ b ∈ modelIds m, ReachIn m.connections a b) :
    ensureSingleConnectedProcess m = m := by
  have hprune : pruneConnections m = m.connections := by
    rw [pruneConnections]
    refine List.filter_eq_self.mpr ?_
    intro c hc
    rw [Bool.and_eq_true]
    exact ⟨(mapGetElement_isSome_iff m.elements c.source).mpr (hclean c hc).1,
      (mapGetElement_isSome_iff m.elements c.target).mpr (hclean c hc).2⟩
  have heta : (⟨m.processName, m.swimlanes, m.elements, m.connections⟩ :
      ProcessModel) = m := rfl
  have hle : (modelComponents m).length ≤ 1 := by
    by_contra hgt
    obtain ⟨_, _, _, hcne, hbnd, _⟩ := modelComponents_spec m
    have h0lt : 0 < (modelComponents m).length := by omega
    have h1lt : 1 < (modelComponents m).length := by omega
    have hc0 : (modelComponents m).getD 0 [] ∈ modelComponents m :=
      getD_mem _ _ _ h0lt
    have hc1 : (modelComponents m).getD 1 [] ∈ modelComponents m :=
      getD_mem _ _ _ h1lt
    obtain ⟨r0, hr0⟩ := List.exists_mem_of_ne_nil _ (hcne _ hc0)
    obtain ⟨r1, hr1⟩ := List.exists_mem_of_ne_nil _ (hcne _ hc1)
    have hr0lt : r0 < (modelIds m).length := hbnd _ hc0 r0 hr0
    have hr1lt : r1 < (modelIds m).length := hbnd _ hc1 r1 hr1
    have hreach2 : ReachIn (pruneConnections m)
        ((modelIds m).getD r0 "") ((modelIds m).getD r1 "") := by
      rw [hprune]
      exact hconn _ (getD_mem _ _ _ hr0lt) _ (getD_mem _ _ _ hr1lt)
    have hr1in0 : r1 ∈ (modelComponents m).getD 0 [] :=
      reach_index_closed m hn _ hc0 _ _ hreach2 r0 hr0lt rfl hr0
        r1 hr1lt rfl
    exact comps_disjoint m 0 1 h0lt h1lt (by omega) r1 hr1in0 hr1
  rw [ensure_le m hle, hprune, heta]

theorem repair_idempotent_witness :
    ensureSingleConnectedProcess wSingle = wSingle := by
  refine repair_idempotent wSingle (by decide) ?_ ?_
  · intro c hc
    exact absurd hc (List.not_mem_nil c)
  · intro a ha b hb
    have ha2 : a = "s" := List.mem_singleton.mp ha
    have hb2 : b = "s" := List.mem_singleton.mp hb
    rw [ha2, hb2]
    exact Relation.ReflTransGen.refl

/-! ### Layout-map lemmas -/

theorem writeFold_char (id : String) (l : List (Item × Pt))
    (acc : Option Pt) :
    l.foldl (fun acc q => if q.1.el.id = id then some q.2 else acc) acc =
      match lastWriteVal l id with
      | some v => some v
      | none => acc := by
  induction l generalizing acc with
  | nil => rfl
  | cons q t ih =>
      rw [List.foldl_cons]
      rw [ih (if q.1.el.id = id then some q.2 else acc)]
      have h2 : lastWriteVal (q :: t) id =
          match lastWriteVal t id with
          | some v => some v
          | none => if q.1.el.id = id then some q.2 else none := by
        rw [lastWriteVal, List.foldl_cons, ih]
      rw [h2]
      rcases lastWriteVal t id with _ | v
      · by_cases hk : q.1.el.id = id <;> simp [hk]
      · rfl

theorem mapSetFold_char (id : String) (l : List (Item × Pt)) :
    ∀ pos : String → Option Pt,
    (l.foldl (fun p q => mapSet p q.1.el.id q.2) pos) id =
      match lastWriteVal l id with
      | some v => some v
      | none => pos id := by
  induction l with
  | nil => intro pos; rfl
  | cons q t ih =>
      intro pos
      rw [List.foldl_cons, ih (mapSet pos q.1.el.id q.2)]
      have h2 : lastWriteVal (q :: t) id =
          match lastWriteVal t id with
          | some v => some v
          | none => if q.1.el.id = id then some q.2 else none := by
        rw [lastWriteVal, List.foldl_cons, writeFold_char]
      rw [h2]
      rcases lastWriteVal t id with _ | v
      · by_cases hk : q.1.el.id = id
        · rw [if_pos hk]
          show (if id = q.1.el.id then some q.2 else pos id) = some q.2
          rw [if_pos hk.symm]
        · rw [if_neg hk]
          show (if id = q.1.el.id then some q.2 else pos id) = pos id
          rw [if_neg (fun he => hk he.symm)]
      · rfl

theorem writeLane_char (m : ProcessModel) (j : Nat)
    (pos : String → Option Pt) (id : String) :
    writeLane m j pos id =
      match lanePos m j id with
      | some v => some v
      | none => pos id := by
  rw [writeLane, mapSetFold_char]
  rfl

theorem lanesFold_no_writes (m : ProcessModel) (id : String) :
    ∀ (js : List Nat) (pos : String → Option Pt),
    (∀ j ∈ js, lanePos m j id = none) → lanesFold m js pos id = pos id := by
  intro js
  induction js with
  | nil => intro pos _; rfl
  | cons j t ih =>
      intro pos hno
      show lanesFold m t (writeLane m j pos) id = pos id
      rw [ih (writeLane m j pos) (fun j2 h2 => hno j2 (List.mem_cons_of_mem j h2)),
        writeLane_char, hno j (List.mem_cons_self j t)]

theorem lanesFold_append (m : ProcessModel) (l1 l2 : List Nat)
    (pos : String → Option Pt) :
    lanesFold m (l1 ++ l2) pos = lanesFold m l2 (lanesFold m l1 pos) := by
  induction l1 generalizing pos with
  | nil => rfl
  | cons j t ih => exact ih (writeLane m j pos)

theorem lanesFold_last_writer (m : ProcessModel) (id : String) (k : Nat)
    (v : Pt) (l1 l2 : List Nat) (pos : String → Option Pt)
    (hl2 : ∀ j ∈ l2, lanePos m j id = none)
    (hv : lanePos m k id = some v) :
    lanesFold m (l1 ++ k :: l2) pos id = some v := by
  rw [lanesFold_append]
  show lanesFold m l2 (writeLane m k (lanesFold m l1 pos)) id = some v
  rw [lanesFold_no_writes m id l2 _ hl2, writeLane_char, hv]

theorem fallbackFold_some (m : ProcessModel) (id : String) (v : Pt) :
    ∀ pos : String → Option Pt, pos id = some v →
    fallbackFold m pos id = some v := by
  have key : ∀ (es : List Element) (pos : String → Option Pt),
      pos id = some v →
      (es.foldl
        (fun p el =>
          match p el.id with
          | some _ => p
          | none =>
              mapSet p el.id
                ⟨layoutMinX,
                  laneY (elementIdToLaneIndex m el.id) +
                    (laneHeight - (shapeSize el.type).2) / 2⟩)
        pos) id = some v := by
    intro es
    induction es with
    | nil => intro pos h; exact h
    | cons el t ih =>
        intro pos h
        rw [List.foldl_cons]
        rcases hpe : pos el.id with _ | w
        · refine ih _ ?_
          show (if id = el.id then
              some (⟨layoutMinX,
                laneY (elementIdToLaneIndex m el.id) +
                  (laneHeight - (shapeSize el.type).2) / 2⟩ : Pt)
            else pos id) = some v
          by_cases hid : id = el.id
          · rw [hid] at h
            rw [h] at hpe
            cases hpe
          · rw [if_neg hid]
            exact h
        · exact ih pos h
  intro pos h
  exact key m.elements pos h

theorem lastWriteVal_none (l : List (Item × Pt)) (id : String)
    (h : ∀ q ∈ l, q.1.el.id ≠ id) : lastWriteVal l id = none := by
  refine foldl_induction _ l none (fun acc => acc = none) rfl ?_
  intro acc q hq hacc
  rw [if_neg (h q hq), hacc]

theorem lastWriteVal_entry (l : List (Item × Pt)) (id : String) (v : Pt)
    (h : lastWriteVal l id = some v) :
    ∃ q ∈ l, q.1.el.id = id ∧ q.2 = v := by
  have key := foldl_induction
    (fun (acc : Option Pt) q => if q.1.el.id = id then some q.2 else acc)
    l none
    (fun acc => acc = none ∨ ∃ q ∈ l, q.1.el.id = id ∧ acc = some q.2)
    (Or.inl rfl) ?_
  · rw [lastWriteVal] at h
    rcases key with h1 | ⟨q, hq, hqid, hqv⟩
    · rw [h] at h1; cases h1
    · rw [h] at hqv
      cases hqv
      exact ⟨q, hq, hqid, rfl⟩
  · intro acc q hq hacc
    dsimp only
    by_cases hk : q.1.el.id = id
    · rw [if_pos hk]
      exact Or.inr ⟨q, hq, hk, rfl⟩
    · rw [if_neg hk]
      exact hacc

theorem lastWriteVal_isSome (l : List (Item × Pt)) (id : String)
    (h : ∃ q ∈ l, q.1.el.id = id) : (lastWriteVal l id).isSome = true := by
  obtain ⟨q0, hq0, hq0id⟩ := h
  induction l with
  | nil => cases hq0
  | cons q t ih =>
      have hstep : lastWriteVal (q :: t) id =
          match lastWriteVal t id with
          | some v => some v
          | none => if q.1.el.id = id then some q.2 else none := by
        rw [lastWriteVal, List.foldl_cons, writeFold_char]
      rcases List.mem_cons.mp hq0 with h1 | h1
      · rw [hstep]
        rcases lastWriteVal t id with _ | v
        · rw [h1] at hq0id
          rw [if_pos hq0id]
          rfl
        · rfl
      · have := ih h1
        rw [hstep]
        rcases hlw : lastWriteVal t id with _ | v
        · rw [hlw] at this
          cases this
        · rfl

theorem packLane_items (items : List Item) (c : Rat) :
    (packLane items c).map (fun q => q.1) = items := by
  induction items generalizing c with
  | nil => rfl
  | cons it t ih =>
      rw [packLane]
      simp only [List.map_cons]
      rw [ih]

theorem packLane_entry_item (items : List Item) (c : Rat) (q : Item × Pt)
    (hq : q ∈ packLane items c) : q.1 ∈ items := by
  rw [← packLane_items items c]
  exact List.mem_map_of_mem (fun q => q.1) hq

theorem laneRecords_id_mem (m : ProcessModel) (j : Nat) (el : Element)
    (h : el ∈ laneRecords m j) : el.id ∈ laneMembers m j := by
  obtain ⟨a, ha, hfa⟩ := List.mem_filterMap.mp h
  obtain ⟨_, hid⟩ := mapGetElement_some m.elements a el hfa
  exact hid ▸ ha

theorem laneRecords_resolve (m : ProcessModel) (j : Nat) (el : Element)
    (h : el ∈ laneRecords m j) : mapGetElement m.elements el.id = some el := by
  obtain ⟨a, ha, hfa⟩ := List.mem_filterMap.mp h
  obtain ⟨_, hid⟩ := mapGetElement_some m.elements a el hfa
  rw [hid]
  exact hfa

theorem lanePos_none_of_not_mem (m : ProcessModel) (j : Nat) (id : String)
    (h : id ∉ laneMembers m j) : lanePos m j id = none := by
  refine lastWriteVal_none _ _ ?_
  intro q hq he
  have h1 : q.1 ∈ laneItems m j := packLane_entry_item _ _ q hq
  obtain ⟨el, hel, helq⟩ := List.mem_map.mp h1
  have : q.1.el = el := by rw [← helq]
  rw [this] at he
  exact h (he ▸ laneRecords_id_mem m j el hel)

theorem lanePos_isSome_of_mem (m : ProcessModel) (j : Nat) (id : String)
    (e : Element) (hmem : id ∈ laneMembers m j)
    (hres : mapGetElement m.elements id = some e) :
    (lanePos m j id).isSome = true := by
  refine lastWriteVal_isSome _ _ ?_
  have herec : e ∈ laneRecords m j :=
    List.mem_filterMap.mpr ⟨id, hmem, hres⟩
  have hitem : (⟨e, (shapeSize e.type).1, (shapeSize e.type).2,
      laneY j + (laneHeight - (shapeSize e.type).2) / 2⟩ : Item) ∈
      laneItems m j := List.mem_map_of_mem _ herec
  rw [← packLane_items (laneItems m j) layoutMinX] at hitem
  obtain ⟨q, hq, hqe⟩ := List.mem_map.mp hitem
  refine ⟨q, hq, ?_⟩
  obtain ⟨_, hid⟩ := mapGetElement_some m.elements id e hres
  rw [show q.1.el = e by rw [hqe], hid]

theorem layoutMap_eq_lanePos (m : ProcessModel) (id : String) (k : Nat)
    (v : Pt) (hk : k < m.swimlanes.length)
    (hno : ∀ j, k < j → j < m.swimlanes.length → lanePos m j id = none)
    (hv : lanePos m k id = some v) :
    layoutMap m id = some v := by
  rw [layoutMap]
  have hcount : laneCount m = m.swimlanes.length := by
    rw [laneCount]
    omega
  refine fallbackFold_some m id v _ ?_
  rw [hcount, range_split k m.swimlanes.length hk]
  refine lanesFold_last_writer m id k v _ _ _ ?_ hv
  intro j hj
  obtain ⟨t, ht, htj⟩ := List.mem_map.mp hj
  have htlt : t < m.swimlanes.length - k - 1 := List.mem_range.mp ht
  exact hno j (by omega) (by omega)

/-! ### Packing separation -/

theorem shapeSize_w_nonneg (t : ElemType) : 0 ≤ (shapeSize t).1 := by
  cases t <;> norm_num [shapeSize]

theorem packFits_cons (it : Item) (rest : List Item) (c : Rat) :
    packFits (it :: rest) c = true →
      c ≤ canvasWidth - rightMargin - it.w ∧
      packFits rest (min c (canvasWidth - rightMargin - it.w) + it.w +
        minElementGap) = true := by
  intro h
  rw [packFits] at h
  split at h
  · next hc => exact ⟨hc, h⟩
  · cases h

theorem packLane_x_ge (items : List Item) (c : Rat)
    (hw : ∀ it ∈ items, 0 ≤ it.w) (hfit : packFits items c = true) :
    ∀ q ∈ packLane items c, c ≤ q.2.x := by
  induction items generalizing c with
  | nil => intro q hq; cases hq
  | cons it t ih =>
      obtain ⟨hc, hfit2⟩ := packFits_cons it t c hfit
      intro q hq
      rw [packLane] at hq
      rcases List.mem_cons.mp hq with h1 | h1
      · rw [h1]
        show c ≤ min c (canvasWidth - rightMargin - it.w)
        rw [min_eq_left hc]
      · have hmin : min c (canvasWidth - rightMargin - it.w) = c :=
          min_eq_left hc
        rw [hmin] at hfit2 h1
        have := ih (c + it.w + minElementGap)
          (fun it2 h2 => hw it2 (List.mem_cons_of_mem it h2)) hfit2 q h1
        have hwit : 0 ≤ it.w := hw it (List.mem_cons_self it t)
        have hgap : (0 : Rat) ≤ minElementGap := by norm_num [minElementGap]
        linarith

theorem packLane_pairwise (items : List Item) (c : Rat)
    (hw : ∀ it ∈ items, 0 ≤ it.w) (hfit : packFits items c = true) :
    List.Pairwise (fun q1 q2 => q1.2.x + q1.1.w + minElementGap ≤ q2.2.x)
      (packLane items c) := by
  induction items generalizing c with
  | nil => exact List.Pairwise.nil
  | cons it t ih =>
      obtain ⟨hc, hfit2⟩ := packFits_cons it t c hfit
      have hmin : min c (canvasWidth - rightMargin - it.w) = c :=
        min_eq_left hc
      rw [hmin] at hfit2
      rw [packLane]
      refine List.Pairwise.cons ?_ ?_
      · intro q hq
        have := packLane_x_ge t (c + it.w + minElementGap)
          (fun it2 h2 => hw it2 (List.mem_cons_of_mem it h2)) hfit2 q
          (by rw [← hmin]; exact hq)
        show min c (canvasWidth - rightMargin - it.w) + it.w +
          minElementGap ≤ q.2.x
        rw [hmin]
        exact this
      · rw [hmin]
        exact ih (c + it.w + minElementGap)
          (fun it2 h2 => hw it2 (List.mem_cons_of_mem it h2)) hfit2

/-- C7 amended: two distinct elements listed in lane `k` (and in no other
lane) whose lane packs without hitting the right-edge cap have horizontal
intervals separated by at least the configured minimum gap of 32. -/
theorem layout_lane_separation (m : ProcessModel) (k : Nat)
    (id1 id2 : String) (e1 e2 : Element)
    (hk : k < m.swimlanes.length)
    (h1 : mapGetElement m.elements id1 = some e1)
    (h2 : mapGetElement m.elements id2 = some e2)
    (hm1 : id1 ∈ laneMembers m k) (hm2 : id2 ∈ laneMembers m k)
    (hne : id1 ≠ id2)
    (hother : ∀ j, j < m.swimlanes.length → j ≠ k →
      id1 ∉ laneMembers m j ∧ id2 ∉ laneMembers m j)
    (hfit : packFits (laneItems m k) layoutMinX = true) :
    ∃ p1 p2, layoutMap m id1 = some p1 ∧ layoutMap m id2 = some p2 ∧
      (p1.x + (shapeSize e1.type).1 + minElementGap ≤ p2.x ∨
       p2.x + (shapeSize e2.type).1 + minElementGap ≤ p1.x) := by
  obtain ⟨v1, hv1⟩ := Option.isSome_iff_exists.mp
    (lanePos_isSome_of_mem m k id1 e1 hm1 h1)
  obtain ⟨v2, hv2⟩ := Option.isSome_iff_exists.mp
    (lanePos_isSome_of_mem m k id2 e2 hm2 h2)
  have hL1 : layoutMap m id1 = some v1 :=
    layoutMap_eq_lanePos m id1 k v1 hk
      (fun j hj1 hj2 =>
        lanePos_none_of_not_mem m j id1 (hother j hj2 (by omega)).1) hv1
  have hL2 : layoutMap m id2 = some v2 :=
    layoutMap_eq_lanePos m id2 k v2 hk
      (fun j hj1 hj2 =>
        lanePos_none_of_not_mem m j id2 (hother j hj2 (by omega)).2) hv2
  obtain ⟨q1, hq1mem, hq1id, hq1v⟩ := lastWriteVal_entry _ id1 v1 hv1
  obtain ⟨q2, hq2mem, hq2id, hq2v⟩ := lastWriteVal_entry _ id2 v2 hv2
  have hwidth : ∀ (q : Item × Pt) (id : String) (e : Element),
      q ∈ packLane (laneItems m k) layoutMinX → q.1.el.id = id →
      mapGetElement m.elements id = some e →
      q.1.w = (shapeSize e.type).1 := by
    intro q id e hqmem hqid hres
    obtain ⟨el, hel, helq⟩ := List.mem_map.mp (packLane_entry_item _ _ q hqmem)
    have hels : q.1.el = el := by rw [← helq]
    have helid : el.id = id := by
      rw [← hels]
      exact hqid
    have hresolved := laneRecords_resolve m k el hel
    rw [helid, hres] at hresolved
    have hee : e = el := Option.some_injective _ hresolved
    have : q.1.w = (shapeSize el.type).1 := by
      rw [← helq]
    rw [this, hee]
  have hw1 : q1.1.w = (shapeSize e1.type).1 := hwidth q1 id1 e1 hq1mem hq1id h1
  have hw2 : q2.1.w = (shapeSize e2.type).1 := hwidth q2 id2 e2 hq2mem hq2id h2
  have hwnn : ∀ it ∈ laneItems m k, 0 ≤ it.w := by
    intro it hit
    obtain ⟨el, _, helq⟩ := List.mem_map.mp hit
    have : it.w = (shapeSize el.type).1 := by rw [← helq]
    rw [this]
    exact shapeSize_w_nonneg el.type
  have hpw := packLane_pairwise (laneItems m k) layoutMinX hwnn hfit
  rw [List.pairwise_iff_get] at hpw
  obtain ⟨n1, hn1⟩ := List.mem_iff_get.mp hq1mem
  obtain ⟨n2, hn2⟩ := List.mem_iff_get.mp hq2mem
  have hnne : n1 ≠ n2 := by
    intro he
    apply hne
    rw [← hq1id, ← hq2id, ← hn1, ← hn2, he]
  refine ⟨v1, v2, hL1, hL2, ?_⟩
  rcases lt_or_gt_of_ne hnne with hlt | hgt
  · left
    have := hpw n1 n2 hlt
    rw [hn1, hn2, hq1v, hq2v, hw1] at this
    exact this
  · right
    have := hpw n2 n1 hgt
    rw [hn1, hn2, hq1v, hq2v, hw2] at this
    exact this

theorem layout_lane_separation_witness :
    ∃ p1 p2, layoutMap laneScenario "t1" = some p1 ∧
      layoutMap laneScenario "t2" = some p2 ∧
      (p1.x + (shapeSize (mkEl "t1" ElemType.task 0 0).type).1 +
        minElementGap ≤ p2.x ∨
       p2.x + (shapeSize (mkEl "t2" ElemType.task 0 0).type).1 +
        minElementGap ≤ p1.x) := by
  refine layout_lane_separation laneScenario 0 "t1" "t2"
    (mkEl "t1" ElemType.task 0 0) (mkEl "t2" ElemType.task 0 0)
    (by decide) (by with_unfolding_all decide) (by with_unfolding_all decide)
    (by decide) (by decide) (by decide) ?_ (by with_unfolding_all decide)
  intro j hj1 hj2
  exfalso
  have hlen : laneScenario.swimlanes.length = 1 := rfl
  omega

/-- C10: an element id listed by more than one swimlane receives the
position computed during the pass over the highest-indexed lane listing
it (later passes overwrite earlier ones in the position map); lower-lane
passes still record a packed position for it (their packing cursors
advance over it), and the element is never handled by the no-lane
fallback since the lane passes already positioned it. -/
theorem multi_lane_last_wins (m : ProcessModel) (id : String) (e : Element)
    (k1 k2 : Nat) (hres : mapGetElement m.elements id = some e)
    (hk1 : k1 < k2) (hk2 : k2 < m.swimlanes.length)
    (hm1 : id ∈ laneMembers m k1) (hm2 : id ∈ laneMembers m k2)
    (hhigh : ∀ j, k2 < j → j < m.swimlanes.length → id ∉ laneMembers m j) :
    layoutMap m id = lanePos m k2 id ∧
    (lanePos m k2 id).isSome = true ∧
    (lanePos m k1 id).isSome = true := by
  have hs2 := lanePos_isSome_of_mem m k2 id e hm2 hres
  obtain ⟨v, hv⟩ := Option.isSome_iff_exists.mp hs2
  refine ⟨?_, hs2, lanePos_isSome_of_mem m k1 id e hm1 hres⟩
  rw [layoutMap_eq_lanePos m id k2 v hk2
    (fun j hj1 hj2 => lanePos_none_of_not_mem m j id (hhigh j hj1 hj2)) hv,
    hv]

theorem multi_lane_last_wins_witness :
    layoutMap wMultiLane "x" = lanePos wMultiLane 1 "x" ∧
    (lanePos wMultiLane 1 "x").isSome = true ∧
    (lanePos wMultiLane 0 "x").isSome = true := by
  refine multi_lane_last_wins wMultiLane "x" (mkEl "x" ElemType.task 0 0) 0 1
    (by with_unfolding_all decide) (by decide) (by decide) (by decide)
    (by decide) ?_
  intro j hj1 hj2
  exfalso
  have hlen : wMultiLane.swimlanes.length = 2 := rfl
  omega

end ProcViz
